import Mathlib

/-!
Shallow embedding of `lark/parsers/cyk.py`: a CYK parser with weighted
ambiguity resolution, a CNF converter (TERM/BIN/UNIT) and the parse-tree
reversal that undoes the conversion.  Definitions mirror the Python source;
theorems settle the frozen specification claims.
-/

namespace Cyk

/-- Grammar symbols.  `T s` is a terminal wrapping a regular-expression
pattern string `s`; `NT s` is a non-terminal wrapping a name.  Python
`Symbol.__eq__` compares `str(self) == str(other)` together with an
`isinstance` check on the concrete subclass (`T.__eq__` / `NT.__eq__`),
which coincides with structural equality of this datatype. -/
inductive Symbol where
  | T (s : String)
  | NT (s : String)
deriving DecidableEq, Repr

/-- Python `Symbol.__str__`: returns the wrapped string `self.s`
(with no type tag). -/
def Symbol.str : Symbol → String
  | .T s => s
  | .NT s => s

/-- `isinstance(x, T)`. -/
def Symbol.isT : Symbol → Bool
  | .T _ => true
  | .NT _ => false

/-- `isinstance(x, NT)`. -/
def Symbol.isNT : Symbol → Bool
  | .T _ => false
  | .NT _ => true

/-- A context-free grammar rule.  `skipped_rules = none` models a plain
`Rule`; `skipped_rules = some l` models a `UnitSkipRule` carrying the list
`l` of rules skipped during UNIT elimination.  The constructor assertions
of `Rule.__init__` (`lhs` is an `NT`, every rhs element a `T` or `NT`) are
expressed by the predicate `Rule.wf` below. -/
inductive Rule where
  | mk (lhs : Symbol) (rhs : List Symbol) (weight : Int) (ralias : String)
       (skipped_rules : Option (List Rule))

/-- `self.lhs`. -/
def Rule.lhs : Rule → Symbol
  | .mk l _ _ _ _ => l

/-- `self.rhs`. -/
def Rule.rhs : Rule → List Symbol
  | .mk _ r _ _ _ => r

/-- `self.weight`. -/
def Rule.weight : Rule → Int
  | .mk _ _ w _ _ => w

/-- `self.alias` (`alias` is a reserved word here, hence `ralias`). -/
def Rule.ralias : Rule → String
  | .mk _ _ _ a _ => a

/-- `self.skipped_rules` (`none` when the object is a plain `Rule`,
i.e. not a `UnitSkipRule`). -/
def Rule.skipped : Rule → Option (List Rule)
  | .mk _ _ _ _ sk => sk

/-- `isinstance(self, UnitSkipRule)`. -/
def Rule.isUnitSkip (r : Rule) : Bool := r.skipped.isSome

/-- The constructor assertions of `Rule.__init__`:
`assert isinstance(lhs, NT)` and
`assert all(isinstance(x, NT) or isinstance(x, T) for x in rhs)` (the
second is vacuous in this embedding, every `Symbol` being a `T` or `NT`). -/
def Rule.wf (r : Rule) : Prop := r.lhs.isNT = true

mutual
/-- Python `r1 == r2` for rules.  `UnitSkipRule` is a proper subclass of
`Rule` overriding `__eq__`, so whenever exactly one operand is a
`UnitSkipRule`, Python tries the subclass's `__eq__` first
(reflected-operand priority) — and `UnitSkipRule.__eq__` requires its
`other` to also be a `UnitSkipRule`, so a plain rule and a skip rule
never compare equal, in either order.  Two plain rules compare by `lhs`
and `rhs` (`Rule.__eq__`); two skip rules additionally compare their
`skipped_rules` lists (`UnitSkipRule.__eq__`).  Weight and alias are
never inspected. -/
def ruleEq : Rule → Rule → Bool
  | .mk l1 h1 _ _ none, .mk l2 h2 _ _ none => l1 == l2 && h1 == h2
  | .mk _ _ _ _ none, .mk _ _ _ _ (some _) => false
  | .mk _ _ _ _ (some _), .mk _ _ _ _ none => false
  | .mk l1 h1 _ _ (some sk1), .mk l2 h2 _ _ (some sk2) =>
      l1 == l2 && h1 == h2 && ruleListEq sk1 sk2

/-- Python list equality `skipped_rules == other.skipped_rules`: equal
lengths and element-wise `==`. -/
def ruleListEq : List Rule → List Rule → Bool
  | [], [] => true
  | a :: as, b :: bs => ruleEq a b && ruleListEq as bs
  | [], _ :: _ => false
  | _ :: _, [] => false
end

/-- Python `str(rule)`: `'%s -> %s' % (lhs, ' '.join(rhs))`. -/
def Rule.strR (r : Rule) : String :=
  r.lhs.str ++ " -> " ++ " ".intercalate (r.rhs.map Symbol.str)

/-- Code-point comparison of characters. -/
def charLtB (a b : Char) : Bool := decide (a.val.toNat < b.val.toNat)

/-- Lexicographic code-point comparison of strings, the order Python uses
for `str` comparison (written out so it evaluates in the kernel). -/
def strLtB : List Char → List Char → Bool
  | [], [] => false
  | [], _ :: _ => true
  | _ :: _, [] => false
  | a :: as, b :: bs =>
      if charLtB a b then true
      else if charLtB b a then false
      else strLtB as bs

/-- Key comparison used by `sorted(rules, key=lambda x: str(x))`. -/
def ruleLt (a b : Rule) : Bool := strLtB a.strR.data b.strR.data

/-- Stable insertion of `a` into a list sorted by the strict key
comparison `lt`: `a` goes before the first element not strictly below it,
hence after all earlier elements with an equal key. -/
def insSorted (lt : α → α → Bool) (a : α) : List α → List α
  | [] => [a]
  | b :: bs => if lt b a then b :: insSorted lt a bs else a :: b :: bs

/-- Stable insertion sort; extensionally equal to Python's stable
`sorted` for the total preorder induced by the sort key. -/
def insSort (lt : α → α → Bool) : List α → List α
  | [] => []
  | x :: xs => insSorted lt x (insSort lt xs)

theorem insSorted_perm (lt : α → α → Bool) (a : α) (l : List α) :
    (insSorted lt a l).Perm (a :: l) := by
  induction l with
  | nil => simp [insSorted]
  | cons b bs ih =>
      simp only [insSorted]
      by_cases h : lt b a = true
      · simp only [h, if_true]
        exact ((ih.cons b).trans (List.Perm.swap a b bs))
      · simp [h]

theorem insSort_perm (lt : α → α → Bool) (l : List α) :
    (insSort lt l).Perm l := by
  induction l with
  | nil => simp [insSort]
  | cons x xs ih =>
      exact (insSorted_perm lt x (insSort lt xs)).trans (ih.cons x)

/-- A context-free grammar: `Grammar.__init__` stores
`sorted(rules, key=lambda x: str(x))`.  Duplicates, if present, are kept. -/
structure Grammar where
  rules : List Rule

/-- `Grammar(rules)`. -/
def mkGrammar (rules : List Rule) : Grammar := ⟨insSort ruleLt rules⟩

theorem mkGrammar_perm (rules : List Rule) :
    (mkGrammar rules).rules.Perm rules := insSort_perm ruleLt rules

/-! ### Claim C9: rule equality -/

mutual
theorem ruleEq_symm : ∀ a b : Rule, ruleEq a b = ruleEq b a
  | .mk l1 h1 w1 a1 none, .mk l2 h2 w2 a2 none => by
      simp only [ruleEq]
      rw [Bool.eq_iff_iff]
      simp only [Bool.and_eq_true, beq_iff_eq]
      constructor
      · rintro ⟨e1, e2⟩; exact ⟨e1.symm, e2.symm⟩
      · rintro ⟨e1, e2⟩; exact ⟨e1.symm, e2.symm⟩
  | .mk _ _ _ _ none, .mk _ _ _ _ (some _) => rfl
  | .mk _ _ _ _ (some _), .mk _ _ _ _ none => rfl
  | .mk l1 h1 w1 a1 (some sk1), .mk l2 h2 w2 a2 (some sk2) => by
      simp only [ruleEq]
      rw [ruleListEq_symm sk1 sk2]
      rw [Bool.eq_iff_iff]
      simp only [Bool.and_eq_true, beq_iff_eq]
      constructor
      · rintro ⟨⟨e1, e2⟩, e3⟩; exact ⟨⟨e1.symm, e2.symm⟩, e3⟩
      · rintro ⟨⟨e1, e2⟩, e3⟩; exact ⟨⟨e1.symm, e2.symm⟩, e3⟩

theorem ruleListEq_symm : ∀ l1 l2 : List Rule, ruleListEq l1 l2 = ruleListEq l2 l1
  | [], [] => rfl
  | [], _ :: _ => rfl
  | _ :: _, [] => rfl
  | a :: as, b :: bs => by
      simp only [ruleListEq]
      rw [ruleEq_symm a b, ruleListEq_symm as bs]
end

/-- C9, counterexample.  The plain rule `A -> B` and a `UnitSkipRule`
`A -> B` have equal `lhs` and `rhs`, yet they do not compare equal — in
either order: Python tries the subclass `UnitSkipRule.__eq__` first
(reflected-operand priority), and it requires both operands to be
`UnitSkipRule`s.  So "r1 equals r2 iff r1.lhs equals r2.lhs and r1.rhs
equals r2.rhs elementwise" is false at this input. -/
theorem c9_eq_kind_mismatch :
    (Rule.mk (.NT "A") [.NT "B"] 0 "x" none).lhs
        = (Rule.mk (.NT "A") [.NT "B"] 5 "y"
            (some [.mk (.NT "Q") [.T "t"] 0 "z" none])).lhs ∧
    (Rule.mk (.NT "A") [.NT "B"] 0 "x" none).rhs
        = (Rule.mk (.NT "A") [.NT "B"] 5 "y"
            (some [.mk (.NT "Q") [.T "t"] 0 "z" none])).rhs ∧
    ruleEq (.mk (.NT "A") [.NT "B"] 0 "x" none)
        (.mk (.NT "A") [.NT "B"] 5 "y"
          (some [.mk (.NT "Q") [.T "t"] 0 "z" none])) = false ∧
    ruleEq (.mk (.NT "A") [.NT "B"] 5 "y"
        (some [.mk (.NT "Q") [.T "t"] 0 "z" none]))
        (.mk (.NT "A") [.NT "B"] 0 "x" none) = false :=
  ⟨rfl, rfl, rfl, rfl⟩

/-- C9, amended.  Two rules compare equal iff they are of the same kind
— both plain or both `UnitSkipRule` — with equal `lhs` and `rhs`
elementwise and, for `UnitSkipRule`s, element-wise equal skip chains;
`lhs`/`rhs` equality alone does not suffice across the two kinds
(`c9_eq_kind_mismatch`).  Weight and alias never affect equality, and
the relation is symmetric. -/
theorem c9_rule_eq :
    (∀ r1 r2 : Rule, ruleEq r1 r2 = true ↔
      (r1.lhs = r2.lhs ∧ r1.rhs = r2.rhs ∧
        ((r1.skipped = none ∧ r2.skipped = none) ∨
         (∃ s1 s2, r1.skipped = some s1 ∧ r2.skipped = some s2 ∧
            ruleListEq s1 s2 = true)))) ∧
    (∀ (l : Symbol) (h : List Symbol) (w w' : Int) (a a' : String)
        (sk : Option (List Rule)) (r2 : Rule),
      ruleEq (.mk l h w a sk) r2 = ruleEq (.mk l h w' a' sk) r2) ∧
    (∀ (r1 : Rule) (l : Symbol) (h : List Symbol) (w w' : Int)
        (a a' : String) (sk : Option (List Rule)),
      ruleEq r1 (.mk l h w a sk) = ruleEq r1 (.mk l h w' a' sk)) ∧
    (∀ r1 r2 : Rule, ruleEq r1 r2 = ruleEq r2 r1) := by
  refine ⟨?_, ?_, ?_, ?_⟩
  · rintro ⟨l1, h1, w1, a1, sk1⟩ ⟨l2, h2, w2, a2, sk2⟩
    cases sk1 <;> cases sk2
    · simp [ruleEq, Rule.lhs, Rule.rhs, Rule.skipped]
    · simp [ruleEq, Rule.lhs, Rule.rhs, Rule.skipped]
    · simp [ruleEq, Rule.lhs, Rule.rhs, Rule.skipped]
    · next sk1 sk2 =>
        simp only [ruleEq, Rule.lhs, Rule.rhs, Rule.skipped,
          Bool.and_eq_true, beq_iff_eq]
        constructor
        · rintro ⟨⟨e1, e2⟩, e3⟩
          exact ⟨e1, e2, Or.inr ⟨sk1, sk2, rfl, rfl, e3⟩⟩
        · rintro ⟨e1, e2, ⟨e3, -⟩ | ⟨s1, s2, hs1, hs2, e3⟩⟩
          · cases e3
          · have h1 := Option.some.inj hs1
            have h2 := Option.some.inj hs2
            subst h1; subst h2
            exact ⟨⟨e1, e2⟩, e3⟩
  · rintro l h w w' a a' sk ⟨l2, h2, w2, a2, sk2⟩
    cases sk <;> cases sk2 <;> rfl
  · rintro ⟨l1, h1, w1, a1, sk1⟩ l h w w' a a' sk
    cases sk1 <;> cases sk <;> rfl
  · exact fun r1 r2 => ruleEq_symm r1 r2

/-- C9, witness for the amended theorem at concrete rules: two plain
rules with equal `lhs`/`rhs` but different weight and alias compare
equal. -/
theorem c9_rule_eq_witness :
    ruleEq (.mk (.NT "A") [.T "a"] 3 "u" none)
      (.mk (.NT "A") [.T "a"] 7 "v" none) = true :=
  (c9_rule_eq.1 (.mk (.NT "A") [.T "a"] 3 "u" none)
    (.mk (.NT "A") [.T "a"] 7 "v" none)).mpr
    ⟨rfl, rfl, Or.inl ⟨rfl, rfl⟩⟩

/-! ### CnfWrapper (claim C7) -/

/-- `defaultdict(list)` update `m[k].append(r)`: append to the entry for
`k` (keeping its position) or create a new entry at the end. -/
def assocAppend [DecidableEq κ] : List (κ × List Rule) → κ → Rule →
    List (κ × List Rule)
  | [], k, r => [(k, [r])]
  | (k', rs) :: rest, k, r =>
      if k' = k then (k', rs ++ [r]) :: rest
      else (k', rs) :: assocAppend rest k r

/-- Association-list lookup, with the `defaultdict` empty default (used
for `nonterminal_rules.get(..., [])` and iteration). -/
def assocGet [DecidableEq κ] : List (κ × List Rule) → κ → List Rule
  | [], _ => []
  | (k', rs) :: rest, k => if k' = k then rs else assocGet rest k

/-- CNF wrapper for a grammar: validates CNF shape and carries the two
lookup indexes (`terminal_rules` keyed by the terminal, and
`nonterminal_rules` keyed by the rhs pair of non-terminals). -/
structure CnfWrapper where
  grammar : Grammar
  terminal_rules : List (Symbol × List Rule)
  nonterminal_rules : List ((Symbol × Symbol) × List Rule)

/-- One iteration of the validation loop of `CnfWrapper.__init__`,
transcribing the `assert` / `if` / `elif` / `else: assert False` chain.
`none` models an assertion failure. -/
def cnfStep (acc : List (Symbol × List Rule) × List ((Symbol × Symbol) × List Rule))
    (r : Rule) :
    Option (List (Symbol × List Rule) × List ((Symbol × Symbol) × List Rule)) :=
  if r.lhs.isNT = false then none            -- assert isinstance(r.lhs, NT)
  else if (r.rhs.length = 1 ∨ r.rhs.length = 2) = False then none
                                             -- assert len(r.rhs) in [1, 2]
  else
    match r.rhs with
    | [Symbol.T t] => some (assocAppend acc.1 (Symbol.T t) r, acc.2)
    | [Symbol.NT a, Symbol.NT b] =>
        some (acc.1, assocAppend acc.2 (Symbol.NT a, Symbol.NT b) r)
    | _ => none                              -- else: assert False

/-- `CnfWrapper(grammar)`; `none` models a failed assertion. -/
def mkCnfWrapper (grammar : Grammar) : Option CnfWrapper := do
  let acc ← grammar.rules.foldlM cnfStep ([], [])
  some ⟨grammar, acc.1, acc.2⟩

/-- The CNF shape check performed on one rule, as a Boolean. -/
def cnfOk (r : Rule) : Bool :=
  r.lhs.isNT &&
    (match r.rhs with
     | [Symbol.T _] => true
     | [Symbol.NT _, Symbol.NT _] => true
     | _ => false)

theorem cnfStep_isSome (acc) (r : Rule) :
    (cnfStep acc r).isSome = cnfOk r := by
  unfold cnfStep cnfOk
  cases hl : r.lhs.isNT
  · simp
  · simp only [Bool.true_and]
    rcases hr : r.rhs with _ | ⟨x, _ | ⟨y, _ | ⟨z, rest⟩⟩⟩
    · simp
    · cases x <;> simp
    · cases x <;> cases y <;> simp
    · simp

theorem cnfFold_isSome (rs : List Rule)
    (acc : List (Symbol × List Rule) × List ((Symbol × Symbol) × List Rule)) :
    (rs.foldlM cnfStep acc).isSome = rs.all cnfOk := by
  induction rs generalizing acc with
  | nil => simp
  | cons r rest ih =>
      simp only [List.foldlM_cons, List.all_cons]
      cases h : cnfStep acc r with
      | none =>
          have := cnfStep_isSome acc r
          rw [h] at this
          simp [← this]
      | some acc' =>
          have := cnfStep_isSome acc r
          rw [h] at this
          simp only [← this, Option.isSome_some, Bool.true_and]
          exact ih acc'

/-- C7: constructing a `CnfWrapper` succeeds iff every rule has a
non-terminal lhs and an rhs that is a single terminal or exactly two
non-terminals; any other shape makes an assertion fire (modelled by
`none`), so construction fails rather than returning a recoverable
value. -/
theorem c7_cnfwrapper_validation (g : Grammar) :
    (mkCnfWrapper g).isSome = true ↔
      ∀ r ∈ g.rules, r.lhs.isNT = true ∧
        ((∃ t, r.rhs = [Symbol.T t]) ∨
         (∃ a b, r.rhs = [Symbol.NT a, Symbol.NT b])) := by
  have h1 : (mkCnfWrapper g).isSome = (g.rules.foldlM cnfStep ([], [])).isSome := by
    unfold mkCnfWrapper
    cases g.rules.foldlM cnfStep ([], []) <;> rfl
  rw [h1, cnfFold_isSome, List.all_eq_true]
  constructor
  · intro h r hr
    have := h r hr
    unfold cnfOk at this
    rcases hok : r.lhs.isNT with _ | _
    · rw [hok] at this; simp at this
    · refine ⟨rfl, ?_⟩
      rw [hok, Bool.true_and] at this
      rcases hr2 : r.rhs with _ | ⟨x, _ | ⟨y, _ | ⟨z, rest⟩⟩⟩ <;>
        rw [hr2] at this
      · simp at this
      · cases x
        · exact Or.inl ⟨_, rfl⟩
        · simp at this
      · cases x <;> cases y
        · simp at this
        · simp at this
        · simp at this
        · exact Or.inr ⟨_, _, rfl⟩
      · simp at this
  · intro h r hr
    obtain ⟨hlhs, hshape⟩ := h r hr
    unfold cnfOk
    rw [hlhs, Bool.true_and]
    rcases hshape with ⟨t, ht⟩ | ⟨a, b, hab⟩
    · rw [ht]
    · rw [hab]

/-- C7, witness: a well-shaped two-rule CNF grammar is accepted, by
applying `c7_cnfwrapper_validation` right-to-left at a concrete grammar. -/
theorem c7_witness :
    (mkCnfWrapper (mkGrammar
      [.mk (.NT "A") [.T "a"] 0 "ra" none,
       .mk (.NT "S") [.NT "A", .NT "A"] 0 "rs" none])).isSome = true := by
  apply (c7_cnfwrapper_validation _).mpr
  intro r hr
  have hperm := mkGrammar_perm
    [Rule.mk (.NT "A") [.T "a"] 0 "ra" none,
     Rule.mk (.NT "S") [.NT "A", .NT "A"] 0 "rs" none]
  have hr' := hperm.mem_iff.mp hr
  simp only [List.mem_cons, List.not_mem_nil, or_false] at hr'
  rcases hr' with h | h
  · subst h; exact ⟨rfl, Or.inl ⟨"a", rfl⟩⟩
  · subst h; exact ⟨rfl, Or.inr ⟨"A", "A", rfl⟩⟩

/-! ### TERM (claim C5) -/

/-- The TERM-introduced unit rule `t_rules[t]`:
`Rule(NT('__T_%s' % str(t)), [t], weight=0, alias='Term')`. -/
def tRuleOf (t : Symbol) : Rule :=
  .mk (.NT ("__T_" ++ t.str)) [t] 0 "Term" none

/-- The rewriting of one rule in the TERM branch:
`Rule(rule.lhs, [t_rules[x].lhs if isinstance(x, T) else x for x in rule.rhs],
weight=rule.weight, alias=rule.alias)`. -/
def termRewrite (r : Rule) : Rule :=
  .mk r.lhs (r.rhs.map fun x => if x.isT then (tRuleOf x).lhs else x)
    r.weight r.ralias none

/-- `Term(g)`.  `all_t` is the set of terminals occurring in any rhs
(modelled as a deduplicated list; Python set iteration order is
unspecified and only the resulting rule multiset matters, `Grammar`
re-sorting it).  Note that the generator
`new_rules.extend(v for k, v in t_rules.iteritems() if k in rule.rhs)`
runs once per rewritten rule, so a `t_rules` entry is appended once for
every long rule containing its terminal. -/
def Term (g : Grammar) : Grammar :=
  let all_t := (g.rules.flatMap fun r => r.rhs.filter Symbol.isT).dedup
  mkGrammar (g.rules.flatMap fun rule =>
    if 1 < rule.rhs.length ∧ rule.rhs.any Symbol.isT = true then
      termRewrite rule ::
        (all_t.filter (fun t => decide (t ∈ rule.rhs))).map tRuleOf
    else [rule])

theorem countP_flatMap (p : β → Bool) (f : α → List β) (l : List α) :
    List.countP p (l.flatMap f) = (l.map fun a => List.countP p (f a)).sum := by
  induction l with
  | nil => rfl
  | cons x xs ih => simp [List.flatMap_cons, List.countP_append, ih]

theorem sum_map_eq_countP (l : List α) (f : α → Nat) (p : α → Bool)
    (h : ∀ x ∈ l, f x = if p x = true then 1 else 0) :
    (l.map f).sum = l.countP p := by
  induction l with
  | nil => rfl
  | cons x xs ih =>
      simp only [List.map_cons, List.sum_cons, List.countP_cons,
        h x (List.mem_cons_self x xs)]
      rw [ih (fun y hy => h y (List.mem_cons_of_mem x hy))]
      by_cases hp : p x = true
      · simp [hp, Nat.add_comm]
      · simp [hp]

theorem ruleEq_tRuleOf (t' t : Symbol) :
    ruleEq (tRuleOf t') (tRuleOf t) = true ↔ t' = t := by
  simp only [tRuleOf, ruleEq, Rule.lhs, Rule.rhs, Bool.and_eq_true, beq_iff_eq]
  constructor
  · rintro ⟨-, h2⟩
    exact (List.cons.injEq .. ▸ h2).1
  · rintro rfl; exact ⟨rfl, rfl⟩

/-- C5, amended.  TERM (i) leaves every rule whose rhs has length 1
unchanged, (ii) for every rule with rhs length > 1 containing a terminal
adds the rule with each terminal occurrence `x` replaced by
`NT ("__T_" ++ x)`, (iii) adds the unit rule `__T_t -> t` (weight 0,
alias `"Term"`) for every terminal `t` occurring in such a rule — but
once per such rule rather than exactly once per distinct terminal: when
no lhs of `g` collides with an introduced `__T_` name, the number of
copies of `__T_t -> t` in `Term(g)` equals the number of rules of `g`
with rhs length > 1 containing `t` (see `c5_term_duplicate` for a grammar
where this is 2). -/
theorem c5_term :
    (∀ (g : Grammar) (r : Rule), r ∈ g.rules → r.rhs.length = 1 →
      r ∈ (Term g).rules) ∧
    (∀ (g : Grammar) (r : Rule), r ∈ g.rules → 1 < r.rhs.length →
      r.rhs.any Symbol.isT = true →
      Rule.mk r.lhs (r.rhs.map fun x => if x.isT then .NT ("__T_" ++ x.str) else x)
        r.weight r.ralias none ∈ (Term g).rules) ∧
    (∀ (g : Grammar) (r : Rule) (t : Symbol), r ∈ g.rules →
      1 < r.rhs.length → t ∈ r.rhs → t.isT = true →
      Rule.mk (.NT ("__T_" ++ t.str)) [t] 0 "Term" none ∈ (Term g).rules) ∧
    (∀ (g : Grammar) (t : Symbol), t.isT = true →
      (∀ r ∈ g.rules, r.lhs ≠ .NT ("__T_" ++ t.str)) →
      List.countP (fun r => ruleEq r (tRuleOf t)) (Term g).rules
        = g.rules.countP (fun r =>
            decide (1 < r.rhs.length) && r.rhs.any Symbol.isT &&
            decide (t ∈ r.rhs))) := by
  have hmem : ∀ (g : Grammar) (x : Rule) (r : Rule), r ∈ g.rules →
      (x ∈ (if 1 < r.rhs.length ∧ r.rhs.any Symbol.isT = true then
        termRewrite r ::
          (((g.rules.flatMap fun r' => r'.rhs.filter Symbol.isT).dedup).filter
            (fun t => decide (t ∈ r.rhs))).map tRuleOf
       else [r])) → x ∈ (Term g).rules := by
    intro g x r hr hx
    unfold Term
    refine ((mkGrammar_perm _).mem_iff).mpr ?_
    exact List.mem_flatMap.mpr ⟨r, hr, hx⟩
  refine ⟨?_, ?_, ?_, ?_⟩
  · intro g r hr hlen
    refine hmem g r r hr ?_
    have : ¬ (1 < r.rhs.length ∧ r.rhs.any Symbol.isT = true) := by
      rintro ⟨h1, -⟩; omega
    rw [if_neg this]
    exact List.mem_singleton.mpr rfl
  · intro g r hr hlen hany
    refine hmem g _ r hr ?_
    rw [if_pos ⟨hlen, hany⟩]
    exact List.mem_cons_self _ _
  · intro g r t hr hlen ht hisT
    refine hmem g _ r hr ?_
    have hany : r.rhs.any Symbol.isT = true :=
      List.any_eq_true.mpr ⟨t, ht, hisT⟩
    rw [if_pos ⟨hlen, hany⟩]
    refine List.mem_cons_of_mem _ ?_
    have htall : t ∈ (g.rules.flatMap fun r' => r'.rhs.filter Symbol.isT).dedup :=
      List.mem_dedup.mpr (List.mem_flatMap.mpr
        ⟨r, hr, List.mem_filter.mpr ⟨ht, hisT⟩⟩)
    refine List.mem_map.mpr ⟨t, List.mem_filter.mpr ⟨htall, by simpa using ht⟩, ?_⟩
    rfl
  · intro g t hisT hnc
    unfold Term
    rw [(mkGrammar_perm _).countP_eq, countP_flatMap]
    have hne : ∀ r ∈ g.rules,
        ruleEq r (tRuleOf t) = true → False := by
      intro r hr hEq
      apply hnc r hr
      rcases r with ⟨l, h, w, a, sk⟩
      cases sk with
      | none =>
          simp only [ruleEq, tRuleOf, Rule.lhs, Bool.and_eq_true, beq_iff_eq] at hEq
          exact hEq.1
      | some sk' =>
          -- a `UnitSkipRule` never compares equal to the plain `t_rules[t]`
          simp [ruleEq, tRuleOf] at hEq
    have step : ∀ r ∈ g.rules,
        List.countP (fun x => ruleEq x (tRuleOf t))
          (if 1 < r.rhs.length ∧ r.rhs.any Symbol.isT = true then
            termRewrite r ::
              (((g.rules.flatMap fun r' => r'.rhs.filter Symbol.isT).dedup).filter
                (fun u => decide (u ∈ r.rhs))).map tRuleOf
           else [r])
          = (if (decide (1 < r.rhs.length) && r.rhs.any Symbol.isT &&
                decide (t ∈ r.rhs)) = true then 1 else 0) := by
      intro r hr
      by_cases hc : 1 < r.rhs.length ∧ r.rhs.any Symbol.isT = true
      · rw [if_pos hc]
        have hhead : ruleEq (termRewrite r) (tRuleOf t) = false := by
          rcases hh : ruleEq (termRewrite r) (tRuleOf t) with _ | _
          · rfl
          · exfalso
            apply hnc r hr
            simp only [termRewrite, ruleEq, tRuleOf, Rule.lhs,
              Bool.and_eq_true, beq_iff_eq] at hh
            exact hh.1
        rw [List.countP_cons, hhead]
        simp only [if_neg (by simp : ¬ (false = true)), Nat.add_zero]
        rw [List.countP_map]
        have hpe : List.countP
            ((fun x => ruleEq x (tRuleOf t)) ∘ tRuleOf)
            (((g.rules.flatMap fun r' => r'.rhs.filter Symbol.isT).dedup).filter
              (fun u => decide (u ∈ r.rhs)))
            = List.count t
              (((g.rules.flatMap fun r' => r'.rhs.filter Symbol.isT).dedup).filter
                (fun u => decide (u ∈ r.rhs))) := by
          rw [List.count]
          refine List.countP_congr ?_
          intro u hu
          simp only [Function.comp_apply, beq_iff_eq]
          exact (ruleEq_tRuleOf u t)
        rw [hpe]
        by_cases hmemt : t ∈ r.rhs
        · have hnodup : (((g.rules.flatMap fun r' => r'.rhs.filter Symbol.isT).dedup).filter
              (fun u => decide (u ∈ r.rhs))).Nodup :=
            (List.nodup_dedup _).filter _
          have htin : t ∈ ((g.rules.flatMap fun r' => r'.rhs.filter Symbol.isT).dedup).filter
              (fun u => decide (u ∈ r.rhs)) := by
            refine List.mem_filter.mpr ⟨?_, by simpa using hmemt⟩
            exact List.mem_dedup.mpr (List.mem_flatMap.mpr
              ⟨r, hr, List.mem_filter.mpr ⟨hmemt, hisT⟩⟩)
          rw [List.count_eq_one_of_mem hnodup htin]
          have : (decide (1 < r.rhs.length) && r.rhs.any Symbol.isT &&
              decide (t ∈ r.rhs)) = true := by
            simp [hc.1, hc.2, hmemt]
          rw [if_pos this]
        · have htout : t ∉ ((g.rules.flatMap fun r' => r'.rhs.filter Symbol.isT).dedup).filter
              (fun u => decide (u ∈ r.rhs)) := by
            intro hmem'
            exact hmemt (by simpa using (List.mem_filter.mp hmem').2)
          rw [List.count_eq_zero_of_not_mem htout]
          have : (decide (1 < r.rhs.length) && r.rhs.any Symbol.isT &&
              decide (t ∈ r.rhs)) = false := by
            simp [hmemt]
          rw [this]
          simp
      · rw [if_neg hc]
        have h0 : ruleEq r (tRuleOf t) = false := by
          rcases hh : ruleEq r (tRuleOf t) with _ | _
          · rfl
          · exact (hne r hr hh).elim
        simp only [List.countP_cons, List.countP_nil, h0]
        have : (decide (1 < r.rhs.length) && r.rhs.any Symbol.isT &&
            decide (t ∈ r.rhs)) = false := by
          rcases h1 : decide (1 < r.rhs.length) with _ | _
          · rfl
          · rcases h2 : r.rhs.any Symbol.isT with _ | _
            · rfl
            · exact absurd ⟨of_decide_eq_true h1, h2⟩ hc
        rw [this]
        simp
    exact sum_map_eq_countP _ _ _ step

/-- C5, counterexample to "exactly once for each distinct terminal": with
two rules `A -> 'a' B` and `C -> 'a' D` sharing the terminal `'a'`, the
unit rule `__T_a -> 'a'` occurs twice in `Term(g).rules` (it is emitted
once per rewritten rule, and `Grammar` keeps duplicates). -/
theorem c5_term_duplicate :
    List.countP (fun r => ruleEq r (tRuleOf (.T "a")))
      (Term (mkGrammar
        [.mk (.NT "A") [.T "a", .NT "B"] 0 "r1" none,
         .mk (.NT "C") [.T "a", .NT "D"] 0 "r2" none])).rules = 2 := by
  rfl

/-- C5, witness for `c5_term` at a one-rule grammar: the introduced unit
rule occurs exactly once. -/
theorem c5_term_witness :
    List.countP (fun r => ruleEq r (tRuleOf (.T "a")))
      (Term (mkGrammar [.mk (.NT "S") [.T "a", .NT "B"] 0 "r" none])).rules
      = 1 := by
  have hcol : ∀ r ∈ (mkGrammar [Rule.mk (.NT "S") [.T "a", .NT "B"] 0 "r" none]).rules,
      r.lhs ≠ Symbol.NT ("__T_" ++ (Symbol.T "a").str) := by
    have he : (mkGrammar [Rule.mk (.NT "S") [.T "a", .NT "B"] 0 "r" none]).rules
        = [Rule.mk (.NT "S") [.T "a", .NT "B"] 0 "r" none] := rfl
    rw [he]
    intro r hr
    rw [List.mem_singleton] at hr
    subst hr
    intro hcontra
    simp [Rule.lhs, Symbol.str] at hcontra
  exact (c5_term.2.2.2 _ (.T "a") rfl hcol).trans (by rfl)


/-! ### BIN and UNIT (claims C6, C8) -/

/-- `Split(rule)`: splits a rule with `len(rhs) > 2` into a chain of
binary rules over fresh `__SP_…` non-terminals.  (`rule.rhs[0]` would
raise on an empty rhs; `Split` is only invoked on rules with
`len(rhs) > 2`.) -/
def Split (rule : Rule) : List Rule :=
  let rule_str := rule.lhs.str ++ "__" ++ "_".intercalate (rule.rhs.map Symbol.str)
  let rule_name := fun (i : Nat) => "__SP_" ++ rule_str ++ "_" ++ toString i
  (Rule.mk rule.lhs [rule.rhs.headD (.NT ""), .NT (rule_name 1)]
      rule.weight rule.ralias none)
    :: ((List.range' 1 (rule.rhs.length - 3)).map fun i =>
        Rule.mk (.NT (rule_name i)) [rule.rhs.getD i (.NT ""), .NT (rule_name (i + 1))]
          0 "Split" none)
    ++ [Rule.mk (.NT (rule_name (rule.rhs.length - 2)))
          (rule.rhs.drop (rule.rhs.length - 2)) 0 "Split" none]

/-- `Bin(g)`. -/
def Bin (g : Grammar) : Grammar :=
  mkGrammar (g.rules.flatMap fun rule =>
    if 2 < rule.rhs.length then Split rule else [rule])

/-- `BuildUnitSkipRule(unit_rule, target_rule)`: the replacement rule
`unit_rule.lhs -> target_rule.rhs`, a `UnitSkipRule` that prepends the
unit rule's own chain (when it has one), records the target, and appends
the target's chain (when the target has one). -/
def BuildUnitSkipRule (unit_rule target_rule : Rule) : Rule :=
  .mk unit_rule.lhs target_rule.rhs (unit_rule.weight + target_rule.weight)
    unit_rule.ralias
    (some ((unit_rule.skipped.getD []) ++ [target_rule] ++
           (target_rule.skipped.getD [])))

/-- `len(rule.rhs) == 1 and isinstance(rule.rhs[0], NT)`. -/
def isNtUnit (r : Rule) : Bool :=
  match r.rhs with
  | [Symbol.NT _] => true
  | _ => false

/-- `GetAnyNtUnitRule(g)`: the first non-terminal unit rule of `g.rules`,
or `none`. -/
def GetAnyNtUnitRule (g : Grammar) : Option Rule :=
  g.rules.find? isNtUnit

/-- `RemoveUnitRule(g, rule)`: drop every rule comparing `==` to `rule`
(Python `x != rule` dispatches on `type(x)`), and for every rule whose lhs
is `rule.rhs[0]` add the corresponding replacement. -/
def RemoveUnitRule (g : Grammar) (rule : Rule) : Grammar :=
  let new_rules := g.rules.filter (fun x => !(ruleEq x rule))
  let refs := g.rules.filter (fun x => x.lhs == rule.rhs.headD (.NT ""))
  mkGrammar (new_rules ++ refs.map (BuildUnitSkipRule rule))

/-- The `while` loop of `Unit(g)`, with an explicit iteration bound
(`none` models non-termination within the bound; the Python loop is
unbounded and diverges on cyclic unit rules). -/
def UnitF : Nat → Grammar → Option Grammar
  | 0, _ => none
  | fuel + 1, g =>
      match GetAnyNtUnitRule g with
      | none => some g
      | some r => UnitF fuel (RemoveUnitRule g r)

/-- Membership in `RemoveUnitRule(g, rule)`: either a surviving rule of
`g` (one not comparing `==` to `rule`) or a replacement built from a rule
whose lhs is the unit rule's rhs symbol. -/
theorem mem_removeUnitRule (g : Grammar) (rule r : Rule) :
    r ∈ (RemoveUnitRule g rule).rules ↔
      ((r ∈ g.rules ∧ ruleEq r rule = false) ∨
       (∃ ref ∈ g.rules, ref.lhs = rule.rhs.headD (.NT "") ∧
          r = BuildUnitSkipRule rule ref)) := by
  unfold RemoveUnitRule
  rw [(mkGrammar_perm _).mem_iff, List.mem_append]
  constructor
  · rintro (hf | hm)
    · obtain ⟨hr, hp⟩ := List.mem_filter.mp hf
      exact Or.inl ⟨hr, by simpa using hp⟩
    · obtain ⟨ref, href, heq⟩ := List.mem_map.mp hm
      obtain ⟨hrg, hp⟩ := List.mem_filter.mp href
      exact Or.inr ⟨ref, hrg, by simpa using hp, heq.symm⟩
  · rintro (⟨hr, hne⟩ | ⟨ref, hrg, hlhs, heq⟩)
    · exact Or.inl (List.mem_filter.mpr ⟨hr, by simpa using hne⟩)
    · refine Or.inr (List.mem_map.mpr ⟨ref, ?_, heq.symm⟩)
      exact List.mem_filter.mpr ⟨hrg, by simpa using hlhs⟩

/-- C6: every rule added by `RemoveUnitRule` is `BuildUnitSkipRule`
applied to the removed unit rule and a rule whose lhs is the unit rule's
rhs symbol; and `BuildUnitSkipRule` produces a `UnitSkipRule` with the
unit rule's lhs and alias, the target's rhs, weight the sum of the two
weights, and a skip chain that records the target, prefixed by the unit
rule's own chain and extended by the target's chain. -/
theorem c6_unit_skip :
    (∀ u t : Rule,
      (BuildUnitSkipRule u t).isUnitSkip = true ∧
      (BuildUnitSkipRule u t).lhs = u.lhs ∧
      (BuildUnitSkipRule u t).rhs = t.rhs ∧
      (BuildUnitSkipRule u t).weight = u.weight + t.weight ∧
      (BuildUnitSkipRule u t).ralias = u.ralias ∧
      (BuildUnitSkipRule u t).skipped =
        some ((u.skipped.getD []) ++ [t] ++ (t.skipped.getD []))) ∧
    (∀ (g : Grammar) (rule r : Rule),
      r ∈ (RemoveUnitRule g rule).rules ↔
        ((r ∈ g.rules ∧ ruleEq r rule = false) ∨
         (∃ ref ∈ g.rules, ref.lhs = rule.rhs.headD (.NT "") ∧
            r = BuildUnitSkipRule rule ref))) := by
  constructor
  · intro u t
    exact ⟨rfl, rfl, rfl, rfl, rfl, rfl⟩
  · intro g rule r
    exact mem_removeUnitRule g rule r

/-! ### Claim C8: termination of UNIT elimination -/

mutual
theorem ruleEq_refl : ∀ r : Rule, ruleEq r r = true
  | .mk l h w a none => by simp [ruleEq, Rule.lhs, Rule.rhs]
  | .mk l h w a (some sk) => by
      simp [ruleEq, Rule.lhs, Rule.rhs, ruleListEq_refl sk]

theorem ruleListEq_refl : ∀ l : List Rule, ruleListEq l l = true
  | [] => rfl
  | a :: as => by simp [ruleListEq, ruleEq_refl a, ruleListEq_refl as]
end

theorem ruleEq_lhs_rhs {x y : Rule} (h : ruleEq x y = true) :
    x.lhs = y.lhs ∧ x.rhs = y.rhs := by
  rcases x with ⟨l, hs, w, a, sk⟩
  rcases y with ⟨l2, hs2, w2, a2, sk2⟩
  cases sk <;> cases sk2
  · simp only [ruleEq, Bool.and_eq_true, beq_iff_eq] at h
    exact ⟨h.1, h.2⟩
  · exact absurd h (by simp [ruleEq])
  · exact absurd h (by simp [ruleEq])
  · simp only [ruleEq, Bool.and_eq_true, beq_iff_eq] at h
    exact ⟨h.1.1, h.1.2⟩

theorem isNtUnit_iff (r : Rule) :
    isNtUnit r = true ↔ ∃ b, r.rhs = [Symbol.NT b] := by
  unfold isNtUnit
  rcases hr : r.rhs with _ | ⟨x, _ | ⟨y, rest⟩⟩
  · simp
  · cases x <;> simp
  · simp

/-- The rank of a unit rule's rhs symbol. -/
def rhsRank (rank : Symbol → Nat) (r : Rule) : Nat := rank (r.rhs.headD (.NT ""))

/-- Number of non-terminal unit rules of `g` whose rhs symbol has rank `k`. -/
def cntR (rank : Symbol → Nat) (g : Grammar) (k : Nat) : Nat :=
  g.rules.countP (fun r => isNtUnit r && (rhsRank rank r == k))

/-- Acyclicity of the unit rules of `g`, witnessed by a rank function that
strictly decreases along every unit rule (for a finite unit-rule graph
this is equivalent to the absence of cycles). -/
def RankDec (rank : Symbol → Nat) (g : Grammar) : Prop :=
  ∀ r ∈ g.rules, ∀ b, r.rhs = [Symbol.NT b] → rank (Symbol.NT b) < rank r.lhs

/-- All unit rules of `g` have rhs rank below `B`. -/
def RankBnd (rank : Symbol → Nat) (B : Nat) (g : Grammar) : Prop :=
  ∀ r ∈ g.rules, isNtUnit r = true → rhsRank rank r < B

/-- Lexicographic comparison of rank-count vectors, most significant
rank first: some position `K < B` strictly drops while everything above
`K` is unchanged. -/
def VecLt (B : Nat) (f g : Nat → Nat) : Prop :=
  ∃ K, K < B ∧ f K < g K ∧ ∀ k, K < k → f k = g k

theorem vecLt_wf (B : Nat) : WellFounded (VecLt B) := by
  induction B with
  | zero =>
      constructor
      intro a
      constructor
      rintro b ⟨K, hK, -, -⟩
      omega
  | succ B ih =>
      have hprod : WellFounded
          (Prod.Lex (fun m n : Nat => m < n) (VecLt B)) :=
        WellFounded.prod_lex (Nat.lt_wfRel.wf) ih
      have hinv := InvImage.wf (fun f : Nat → Nat => ((f B, f) : Nat × (Nat → Nat))) hprod
      refine Subrelation.wf ?_ hinv
      rintro f g ⟨K, hK, hlt, hgt⟩
      by_cases hKB : K = B
      · subst hKB
        exact Prod.Lex.left _ _ hlt
      · have hKB' : K < B := by omega
        have hfB : f B = g B := hgt B hKB'
        show Prod.Lex _ _ (f B, f) (g B, g)
        rw [hfB]
        exact Prod.Lex.right _ ⟨K, hKB', hlt, hgt⟩

theorem countP_split (p q : α → Bool) (l : List α) :
    l.countP p = l.countP (fun a => p a && q a) + l.countP (fun a => p a && !q a) := by
  induction l with
  | nil => rfl
  | cons x xs ih =>
      simp only [List.countP_cons, ih]
      cases hp : p x <;> cases hq : q x <;> simp <;> omega

theorem removeUnit_rankdec {rank : Symbol → Nat} {g : Grammar} {u : Rule}
    (hP : RankDec rank g) (hu : GetAnyNtUnitRule g = some u) :
    RankDec rank (RemoveUnitRule g u) := by
  have humem : u ∈ g.rules := List.mem_of_find?_eq_some hu
  have huunit : isNtUnit u = true := List.find?_some hu
  obtain ⟨b', hb'⟩ := (isNtUnit_iff u).mp huunit
  intro r hr b hb
  rcases (mem_removeUnitRule g u r).mp hr with ⟨hrg, -⟩ | ⟨ref, hrefg, hlhs, heq⟩
  · exact hP r hrg b hb
  · subst heq
    have hrhs : (BuildUnitSkipRule u ref).rhs = ref.rhs := rfl
    have hlhs2 : (BuildUnitSkipRule u ref).lhs = u.lhs := rfl
    rw [hrhs] at hb
    rw [hlhs2]
    have h1 : rank (Symbol.NT b) < rank ref.lhs := hP ref hrefg b hb
    have h2 : ref.lhs = Symbol.NT b' := by
      rw [hlhs, hb']; rfl
    have h3 : rank (Symbol.NT b') < rank u.lhs := hP u humem b' hb'
    rw [h2] at h1
    omega

theorem removeUnit_rankbnd {rank : Symbol → Nat} {B : Nat} {g : Grammar} {u : Rule}
    (hP : RankDec rank g) (hB : RankBnd rank B g) (hu : GetAnyNtUnitRule g = some u) :
    RankBnd rank B (RemoveUnitRule g u) := by
  have humem : u ∈ g.rules := List.mem_of_find?_eq_some hu
  have huunit : isNtUnit u = true := List.find?_some hu
  obtain ⟨b', hb'⟩ := (isNtUnit_iff u).mp huunit
  intro r hr hrunit
  rcases (mem_removeUnitRule g u r).mp hr with ⟨hrg, -⟩ | ⟨ref, hrefg, hlhs, heq⟩
  · exact hB r hrg hrunit
  · subst heq
    obtain ⟨b, hb⟩ := (isNtUnit_iff _).mp hrunit
    have hrhs : (BuildUnitSkipRule u ref).rhs = ref.rhs := rfl
    rw [hrhs] at hb
    have h1 : rank (Symbol.NT b) < rank ref.lhs := hP ref hrefg b hb
    have h2 : ref.lhs = Symbol.NT b' := by
      rw [hlhs, hb']; rfl
    have h4 : rhsRank rank u < B := hB u humem huunit
    have h5 : rhsRank rank u = rank (Symbol.NT b') := by
      unfold rhsRank; rw [hb']; rfl
    have h6 : rhsRank rank (BuildUnitSkipRule u ref) = rank (Symbol.NT b) := by
      unfold rhsRank
      rw [hrhs, hb]; rfl
    rw [h6]
    rw [h2] at h1
    omega

theorem cnt_remove (rank : Symbol → Nat) (g : Grammar) (u : Rule) (k : Nat) :
    cntR rank (RemoveUnitRule g u) k =
      g.rules.countP (fun r =>
        (isNtUnit r && (rhsRank rank r == k)) && !(ruleEq r u)) +
      (g.rules.filter (fun x => x.lhs == u.rhs.headD (.NT ""))).countP
        (fun x => isNtUnit (BuildUnitSkipRule u x) &&
          (rhsRank rank (BuildUnitSkipRule u x) == k)) := by
  unfold cntR RemoveUnitRule
  rw [(mkGrammar_perm _).countP_eq, List.countP_append, List.countP_filter,
    List.countP_map]
  rfl

theorem removeUnit_decrease {rank : Symbol → Nat} {B : Nat} {g : Grammar} {u : Rule}
    (hP : RankDec rank g) (hB : RankBnd rank B g) (hu : GetAnyNtUnitRule g = some u) :
    VecLt B (fun k => cntR rank (RemoveUnitRule g u) k) (fun k => cntR rank g k) := by
  have humem : u ∈ g.rules := List.mem_of_find?_eq_some hu
  have huunit : isNtUnit u = true := List.find?_some hu
  obtain ⟨b', hb'⟩ := (isNtUnit_iff u).mp huunit
  have hheadD : u.rhs.headD (.NT "") = Symbol.NT b' := by rw [hb']; rfl
  have hmapzero : ∀ k, rhsRank rank u ≤ k →
      (g.rules.filter (fun x => x.lhs == u.rhs.headD (.NT ""))).countP
        (fun x => isNtUnit (BuildUnitSkipRule u x) &&
          (rhsRank rank (BuildUnitSkipRule u x) == k)) = 0 := by
    intro k hk
    refine List.countP_eq_zero.mpr ?_
    intro x hx hcontra
    obtain ⟨hxg, hxl⟩ := List.mem_filter.mp hx
    rw [Bool.and_eq_true] at hcontra
    obtain ⟨hxunit, hxrank⟩ := hcontra
    have hbr : (BuildUnitSkipRule u x).rhs = x.rhs := rfl
    obtain ⟨c, hc⟩ := (isNtUnit_iff _).mp hxunit
    rw [hbr] at hc
    have h1 : rank (Symbol.NT c) < rank x.lhs := hP x hxg c hc
    have h2 : x.lhs = Symbol.NT b' := by
      rw [(by simpa using hxl : x.lhs = u.rhs.headD (.NT "")), hheadD]
    have h3 : rhsRank rank u = rank (Symbol.NT b') := by
      unfold rhsRank; rw [hheadD]
    have h4 : rhsRank rank (BuildUnitSkipRule u x) = rank (Symbol.NT c) := by
      unfold rhsRank; rw [hbr, hc]; rfl
    have h5 : rhsRank rank (BuildUnitSkipRule u x) = k := by
      simpa using hxrank
    rw [h2] at h1
    omega
  refine ⟨rhsRank rank u, hB u humem huunit, ?_, ?_⟩
  · -- strict drop at K = rhsRank u
    show cntR rank (RemoveUnitRule g u) (rhsRank rank u) < cntR rank g (rhsRank rank u)
    rw [cnt_remove, hmapzero _ (le_refl _), Nat.add_zero]
    have hsplit := countP_split
      (fun r => isNtUnit r && (rhsRank rank r == rhsRank rank u))
      (fun r => ruleEq r u) g.rules
    have hpos : 0 < g.rules.countP (fun r =>
        (isNtUnit r && (rhsRank rank r == rhsRank rank u)) && ruleEq r u) := by
      refine List.countP_pos_iff.mpr ⟨u, humem, ?_⟩
      simp [huunit, ruleEq_refl u]
    have hcomm : g.rules.countP (fun r =>
          (isNtUnit r && (rhsRank rank r == rhsRank rank u)) && !(ruleEq r u))
        = g.rules.countP (fun a =>
          (isNtUnit a && (rhsRank rank a == rhsRank rank u)) && !(ruleEq a u)) := rfl
    unfold cntR
    omega
  · -- ranks above K are untouched
    intro k hk
    show cntR rank (RemoveUnitRule g u) k = cntR rank g k
    rw [cnt_remove, hmapzero _ (le_of_lt hk), Nat.add_zero]
    unfold cntR
    refine List.countP_congr ?_
    intro x hx
    rcases he : ruleEq x u with _ | _
    · simp
    · have hxr : x.rhs = u.rhs := (ruleEq_lhs_rhs he).2
      have : rhsRank rank x = rhsRank rank u := by unfold rhsRank; rw [hxr]
      constructor
      · rintro h
        rw [Bool.and_eq_true] at h
        simp at h
      · rintro h
        rw [Bool.and_eq_true] at h
        obtain ⟨-, hrk⟩ := h
        have : rhsRank rank x = k := by simpa using hrk
        omega

theorem unitF_total_aux {B : Nat} {rank : Symbol → Nat} :
    ∀ v : Nat → Nat, Acc (VecLt B) v → ∀ g : Grammar,
      (fun k => cntR rank g k) = v → RankDec rank g → RankBnd rank B g →
      ∃ n g', UnitF n g = some g' ∧ ∀ r ∈ g'.rules, isNtUnit r = false := by
  intro v hacc
  induction hacc with
  | intro v ha ih =>
      intro g hv hP hB
      cases hu : GetAnyNtUnitRule g with
      | none =>
          refine ⟨1, g, ?_, ?_⟩
          · simp [UnitF, hu]
          · intro r hr
            simpa using List.find?_eq_none.mp hu r hr
      | some u =>
          obtain ⟨n, g', h1, h2⟩ :=
            ih _ (hv ▸ removeUnit_decrease hP hB hu) (RemoveUnitRule g u) rfl
              (removeUnit_rankdec hP hu) (removeUnit_rankbnd hP hB hu)
          exact ⟨n + 1, g', by simpa [UnitF, hu] using h1, h2⟩

/-- C8: on a grammar whose non-terminal unit rules are acyclic — witnessed
by a rank function that strictly decreases along every unit rule, the
standard characterization of acyclicity for the finite unit-rule graph —
the UNIT elimination loop terminates (some iteration bound suffices) and
its result contains no rule whose rhs is a single non-terminal. -/
theorem c8_unit_terminates (g : Grammar) (rank : Symbol → Nat)
    (hacyc : ∀ r ∈ g.rules, ∀ b, r.rhs = [Symbol.NT b] →
      rank (Symbol.NT b) < rank r.lhs) :
    ∃ n g', UnitF n g = some g' ∧ ∀ r ∈ g'.rules, isNtUnit r = false := by
  set B := (g.rules.map (rhsRank rank)).sum + 1 with hB
  have hbnd : RankBnd rank B g := by
    intro r hr hru
    have : rhsRank rank r ∈ g.rules.map (rhsRank rank) :=
      List.mem_map.mpr ⟨r, hr, rfl⟩
    have := List.single_le_sum (fun (x : Nat) _ => Nat.zero_le x) _ this
    omega
  exact unitF_total_aux (fun k => cntR rank g k) ((vecLt_wf B).apply _) g rfl
    hacyc hbnd

/-- C8, witness: a two-rule grammar with the single unit rule `A -> B`;
UNIT elimination terminates with no unit rule left. -/
theorem c8_witness :
    ∃ n g', UnitF n (mkGrammar
        [.mk (.NT "A") [.NT "B"] 1 "u" none,
         .mk (.NT "B") [.T "b"] 0 "t" none]) = some g' ∧
      ∀ r ∈ g'.rules, isNtUnit r = false := by
  apply c8_unit_terminates _ (fun s => if s = Symbol.NT "B" then 0 else 1)
  intro r hr b hb
  have he : (mkGrammar
      [Rule.mk (.NT "A") [.NT "B"] 1 "u" none,
       Rule.mk (.NT "B") [.T "b"] 0 "t" none]).rules
      = [Rule.mk (.NT "A") [.NT "B"] 1 "u" none,
         Rule.mk (.NT "B") [.T "b"] 0 "t" none] := rfl
  rw [he] at hr
  simp only [List.mem_cons, List.not_mem_nil, or_false] at hr
  rcases hr with h | h
  · subst h
    simp only [Rule.rhs] at hb
    have hbB : b = "B" := by
      have := (List.cons.injEq .. ▸ hb).1
      simpa [Symbol.NT.injEq] using this.symm
    subst hbB
    simp [Rule.lhs]
  · subst h
    simp only [Rule.rhs] at hb
    exact absurd hb (by simp)

/-! ### Terminal matching (claim C4)

`T.match` delegates to the compiled pattern `self.regexp` from Python's
`re` module (external to this file): `re.match` returns the backtracking
engine's first match at the start of the string — alternation tries the
left branch first and repetition is greedy — not necessarily the longest
possible match.  The engine is modelled here on a regular-expression
abstract syntax. -/

/-- Regular-expression abstract syntax. -/
inductive Regex where
  | eps
  | chr (c : Char)
  | cat (r1 r2 : Regex)
  | alt (r1 r2 : Regex)
  | star (r : Regex)

/-- Language membership: `RMatch r s` says pattern `r` can match the
whole character list `s`. -/
inductive RMatch : Regex → List Char → Prop where
  | eps : RMatch .eps []
  | chr (c) : RMatch (.chr c) [c]
  | cat {r1 r2 s1 s2} : RMatch r1 s1 → RMatch r2 s2 →
      RMatch (.cat r1 r2) (s1 ++ s2)
  | altL {r1 r2 s} : RMatch r1 s → RMatch (.alt r1 r2) s
  | altR {r1 r2 s} : RMatch r2 s → RMatch (.alt r1 r2) s
  | starNil {r} : RMatch (.star r) []
  | starCons {r s1 s2} : RMatch r s1 → RMatch (.star r) s2 →
      RMatch (.star r) (s1 ++ s2)

/-- Every way the backtracking engine can match a prefix of the input, as
(consumed, rest) pairs listed in the engine's preference order:
alternation left branch first, repetition greedy (more iterations first,
each iteration consuming at least one character).  `fuel` bounds the
recursion depth; results are sound for every fuel and a sufficiently
large fuel realizes the engine's unbounded backtracking. -/
def parsesF : Nat → Regex → List Char → List (List Char × List Char)
  | 0, _, _ => []
  | _ + 1, .eps, s => [([], s)]
  | _ + 1, .chr _, [] => []
  | _ + 1, .chr c, x :: xs => if x = c then [([c], xs)] else []
  | fuel + 1, .cat r1 r2, s =>
      (parsesF fuel r1 s).flatMap fun pr =>
        (parsesF fuel r2 pr.2).map fun qr => (pr.1 ++ qr.1, qr.2)
  | fuel + 1, .alt r1 r2, s => parsesF fuel r1 s ++ parsesF fuel r2 s
  | fuel + 1, .star r, s =>
      ((parsesF fuel r s).filter (fun pr => !pr.1.isEmpty)).flatMap
        (fun pr => (parsesF fuel (.star r) pr.2).map fun qr =>
          (pr.1 ++ qr.1, qr.2))
      ++ [([], s)]

/-- Structural size, used to pick a sufficient fuel. -/
def Regex.size : Regex → Nat
  | .eps => 1
  | .chr _ => 1
  | .cat r1 r2 => r1.size + r2.size + 1
  | .alt r1 r2 => r1.size + r2.size + 1
  | .star r => r.size + 1

/-- `self.regexp.match(s)`: the first match in the engine's preference
order, as the consumed prefix (`none` when the pattern cannot match at
the start). -/
def pyMatch (r : Regex) (s : List Char) : Option (List Char) :=
  ((parsesF ((s.length + 1) * (r.size + 1)) r s).head?).map Prod.fst

/-- `T.match(self, s)`:
`m = self.regexp.match(s); return bool(m) and len(m.group(0)) == len(s)`. -/
def tMatch (r : Regex) (s : List Char) : Bool :=
  match pyMatch r s with
  | some m => m.length == s.length
  | none => false

theorem parsesF_sound :
    ∀ (fuel : Nat) (r : Regex) (s : List Char) (pr : List Char × List Char),
      pr ∈ parsesF fuel r s → pr.1 ++ pr.2 = s ∧ RMatch r pr.1 := by
  intro fuel
  induction fuel with
  | zero => intro r s pr h; simp [parsesF] at h
  | succ fuel ih =>
      intro r s pr h
      match r with
      | .eps =>
          simp only [parsesF, List.mem_singleton] at h
          subst h
          exact ⟨rfl, RMatch.eps⟩
      | .chr c =>
          match s with
          | [] => simp [parsesF] at h
          | x :: xs =>
              simp only [parsesF] at h
              by_cases hx : x = c
              · rw [if_pos hx] at h
                rw [List.mem_singleton] at h
                subst h
                subst hx
                exact ⟨rfl, RMatch.chr x⟩
              · rw [if_neg hx] at h
                simp at h
      | .cat r1 r2 =>
          simp only [parsesF, List.mem_flatMap, List.mem_map] at h
          obtain ⟨pr1, h1, qr, h2, heq⟩ := h
          obtain ⟨e1, m1⟩ := ih r1 s pr1 h1
          obtain ⟨e2, m2⟩ := ih r2 pr1.2 qr h2
          subst heq
          refine ⟨?_, RMatch.cat m1 m2⟩
          simp only
          rw [List.append_assoc, e2, e1]
      | .alt r1 r2 =>
          rw [parsesF, List.mem_append] at h
          rcases h with h | h
          · obtain ⟨e, m⟩ := ih r1 s pr h
            exact ⟨e, RMatch.altL m⟩
          · obtain ⟨e, m⟩ := ih r2 s pr h
            exact ⟨e, RMatch.altR m⟩
      | .star r0 =>
          rw [parsesF, List.mem_append] at h
          rcases h with h | h
          · simp only [List.mem_flatMap, List.mem_map] at h
            obtain ⟨pr1, h1, qr, h2, heq⟩ := h
            have h1' := List.mem_of_mem_filter h1
            obtain ⟨e1, m1⟩ := ih r0 s pr1 h1'
            obtain ⟨e2, m2⟩ := ih (.star r0) pr1.2 qr h2
            subst heq
            refine ⟨?_, RMatch.starCons m1 m2⟩
            simp only
            rw [List.append_assoc, e2, e1]
          · rw [List.mem_singleton] at h
            subst h
            exact ⟨rfl, RMatch.starNil⟩

/-- C4, counterexample.  For the pattern `a|aa` on token text `"aa"`,
`re.match` prefers the left alternative and returns the one-character
match, so `T.match` returns `False` — yet the pattern does match `"aa"`
in its entirety, refuting "returns true iff the compiled pattern matches
the string in its entirety". -/
theorem c4_not_fullmatch :
    tMatch (.alt (.chr 'a') (.cat (.chr 'a') (.chr 'a'))) ['a', 'a'] = false ∧
    RMatch (.alt (.chr 'a') (.cat (.chr 'a') (.chr 'a'))) ['a', 'a'] := by
  constructor
  · rfl
  · exact RMatch.altR (RMatch.cat (RMatch.chr 'a') (RMatch.chr 'a'))

/-- C4, amended.  `T.match` returns true iff the engine's first
(leftmost-preference) match spans the whole token text; hence
`T.match = true` implies the pattern matches the text in its entirety,
and whenever the pattern matches only proper prefixes `T.match` is false
— but the converse fails: the pattern may match the full text while the
engine's preferred match is a proper prefix (`c4_not_fullmatch`). -/
theorem c4_match_sound (r : Regex) (s : List Char)
    (h : tMatch r s = true) : RMatch r s := by
  unfold tMatch at h
  cases hp : pyMatch r s with
  | none => rw [hp] at h; cases h
  | some m =>
      rw [hp] at h
      have hlen : m.length = s.length := by simpa using h
      unfold pyMatch at hp
      cases hh : (parsesF ((s.length + 1) * (r.size + 1)) r s).head? with
      | none => rw [hh] at hp; cases hp
      | some pr =>
          rw [hh] at hp
          have hpr : pr ∈ parsesF ((s.length + 1) * (r.size + 1)) r s :=
            List.mem_of_mem_head? hh
          obtain ⟨he, hm⟩ := parsesF_sound _ _ _ _ hpr
          have hm1 : pr.1 = m := by
            simpa using hp
          have hlen2 : pr.1.length + pr.2.length = s.length := by
            rw [← List.length_append, he]
          have hlen3 : pr.1.length = s.length := by rw [hm1]; exact hlen
          have h2 : pr.2 = [] := by
            refine List.eq_nil_of_length_eq_zero ?_
            omega
          have hs : pr.1 = s := by
            rw [← he, h2, List.append_nil]
          exact hs ▸ hm

/-- C4, witness for the amended theorem: the literal pattern `a` accepted
on token text `"a"`. -/
theorem c4_match_sound_witness : RMatch (.chr 'a') ['a'] :=
  c4_match_sound (.chr 'a') ['a'] rfl

/-! ### Parse trees and the CYK table builder (claims C1, C2, C10) -/

/-- A parse tree: `leaf w` is a terminal child `T(w)` wrapping the token
text; `node rule children weight` is a `RuleNode`. -/
inductive PTree where
  | leaf (w : String)
  | node (rule : Rule) (children : List PTree) (weight : Int)

/-- The `weight` attribute of a tree (`RuleNode.weight`; a `T` leaf has
none and contributes nothing to sums). -/
def PTree.wt : PTree → Int
  | .leaf _ => 0
  | .node _ _ w => w

/-- `set.add` on a CYK table cell: Python set membership compares the
stored element to the added one (`stored == added`, dispatching on the
stored element's class), so an element is appended only when no stored
rule compares equal to it. -/
def setAdd (cell : List Rule) (r : Rule) : List Rule :=
  if cell.any (fun e => ruleEq e r) then cell else cell ++ [r]

/-- `rule.lhs in trees[span]` (dict key membership; keys are symbols with
structural equality). -/
def dictMem (d : List (Symbol × PTree)) (k : Symbol) : Bool :=
  d.any (fun p => p.1 == k)

/-- `trees[span][k]` (dict lookup; `none` models `KeyError`). -/
def dictGet? (d : List (Symbol × PTree)) (k : Symbol) : Option PTree :=
  (d.find? (fun p => p.1 == k)).map Prod.snd

/-- `trees[span][k] = v` (dict assignment: replace the entry for `k` in
place, or append a new one; dict keys are unique). -/
def dictSet : List (Symbol × PTree) → Symbol → PTree → List (Symbol × PTree)
  | [], k, v => [(k, v)]
  | p :: rest, k, v =>
      if p.1 == k then (k, v) :: rest else p :: dictSet rest k v

/-- The two parallel tables of `_Parse`: the CYK `defaultdict(set)` table
and the best-tree `defaultdict(dict)` table, keyed by `(start, end)`
spans (`Int` pairs: `parse` consults `(0, len(tokenized) - 1)`, which is
`(0, -1)` on empty input). -/
structure PTables where
  table : Int × Int → List Rule
  trees : Int × Int → List (Symbol × PTree)

/-- `table[sp].add(r)`. -/
def updTable (st : PTables) (sp : Int × Int) (r : Rule) : PTables :=
  { st with table := fun sp' => if sp' = sp then setAdd (st.table sp) r else st.table sp' }

/-- `trees[sp][k] = v`. -/
def updTree (st : PTables) (sp : Int × Int) (k : Symbol) (v : PTree) : PTables :=
  { st with trees := fun sp' => if sp' = sp then dictSet (st.trees sp) k v else st.trees sp' }

/-- `rule.lhs not in trees[sp] or w < trees[sp][rule.lhs].weight`. -/
def needUpdate (d : List (Symbol × PTree)) (k : Symbol) (w : Int) : Bool :=
  match dictGet? d k with
  | none => true
  | some t => decide (w < t.wt)

/-- Innermost statement of the base case: add `rule` to `table[(i,i)]`
and, when lighter than any stored tree, store
`RuleNode(rule, [T(w)], weight=rule.weight)`. -/
def baseRuleStep (sp : Int × Int) (w : String) (st : PTables) (rule : Rule) :
    PTables :=
  let st1 := updTable st sp rule
  if needUpdate (st1.trees sp) rule.lhs rule.weight then
    updTree st1 sp rule.lhs (.node rule [.leaf w] rule.weight)
  else st1

/-- One token of the base case: iterate `g.terminal_rules` and, for every
terminal matching the token text, process its rules.  The terminal's
compiled-regexp match is the abstract matcher `M` (pattern source string,
token text). -/
def baseStep (M : String → String → Bool) (tr : List (Symbol × List Rule))
    (st : PTables) (iw : Nat × String) : PTables :=
  tr.foldl (fun st p =>
    if M p.1.str iw.2 then
      p.2.foldl (baseRuleStep ((iw.1 : Int), (iw.1 : Int)) iw.2) st
    else st) st

/-- Innermost statement of the binary case, for one pair `(r1, r2)` from
the product of the two sub-span cells: for every grammar rule whose rhs
is `(r1.lhs, r2.lhs)`, add it to the span's table cell, and store the
combined tree when it is strictly lighter than any stored one. -/
def binRuleTree (span1 span2 spT : Int × Int) (r1 r2 : Rule)
    (st1 : PTables) (rule : Rule) : PTables :=
  match dictGet? (st1.trees span1) r1.lhs, dictGet? (st1.trees span2) r2.lhs with
  | some t1, some t2 =>
      -- rule_total_weight = rule.weight + r1_tree.weight + r2_tree.weight
      if needUpdate (st1.trees spT) rule.lhs (rule.weight + t1.wt + t2.wt) then
        updTree st1 spT rule.lhs
          (.node rule [t1, t2] (rule.weight + t1.wt + t2.wt))
      else st1
  | _, _ => st1   -- dict `KeyError`; unreachable in `_Parse`, see below

def binRuleInner (span1 span2 spT : Int × Int) (r1 r2 : Rule)
    (st : PTables) (rule : Rule) : PTables :=
  binRuleTree span1 span2 spT r1 r2 (updTable st spT rule) rule

def binRuleStep (trg : List ((Symbol × Symbol) × List Rule))
    (span1 span2 spT : Int × Int) (st : PTables) (r1 r2 : Rule) : PTables :=
  (assocGet trg (r1.lhs, r2.lhs)).foldl (binRuleInner span1 span2 spT r1 r2) st

/-- One split point `p` of a sub-sentence `(i, i+l-1)`:
`itertools.product(table[span1], table[span2])`. -/
def binStep (trg : List ((Symbol × Symbol) × List Rule)) (st : PTables)
    (i l p : Nat) : PTables :=
  (st.table ((i : Int), (p : Int) - 1)).foldl
    (fun st' r1 =>
      (st.table ((p : Int), (i : Int) + (l : Int) - 1)).foldl
        (fun st'' r2 =>
          binRuleStep trg ((i : Int), (p : Int) - 1)
            ((p : Int), (i : Int) + (l : Int) - 1)
            ((i : Int), (i : Int) + (l : Int) - 1) st'' r1 r2)
        st')
    st

/-- The two inner loops for one sub-sentence length `l`
(`for i in xrange(len(s) - l + 1): for p in xrange(i + 1, i + l)`). -/
def phaseL (trg : List ((Symbol × Symbol) × List Rule)) (n l : Nat)
    (st : PTables) : PTables :=
  (List.range (n - l + 1)).foldl (fun st i =>
    (List.range' (i + 1) (l - 1)).foldl (fun st p =>
      binStep trg st i l p) st) st

/-- State of the tables after the base case and the length phases
`2 .. m` (`stAfter s.length` is the result of `_Parse`). -/
def stAfter (M : String → String → Bool) (g : CnfWrapper) (s : List String)
    (m : Nat) : PTables :=
  (List.range' 2 (m - 1)).foldl (fun st l => phaseL g.nonterminal_rules s.length l st)
    (s.enum.foldl (baseStep M g.terminal_rules) ⟨fun _ => [], fun _ => []⟩)

/-- `_Parse(s, g)`: the base case over the tokens, then lengths
`2 .. len(s)` (`xrange(2, len(s) + 1)`). -/
def parseTables (M : String → String → Bool) (s : List String)
    (g : CnfWrapper) : PTables :=
  stAfter M g s s.length

/-- `UnrollUnitSkipRule(lhs, orig_rhs, skipped_rules, children, weight,
alias)`: rebuild the chain of unit rules collapsed into a
`UnitSkipRule`, recovering each level's weight by subtracting the
recorded rule's weight. -/
def UnrollUnitSkipRule : Symbol → List Symbol → List Rule → List PTree →
    Int → String → PTree
  | lhs, orig_rhs, [], children, weight, al =>
      .node (.mk lhs orig_rhs weight al none) children weight
  | lhs, orig_rhs, sk0 :: rest, children, weight, al =>
      .node (.mk lhs [sk0.lhs] (weight - sk0.weight) al none)
        [UnrollUnitSkipRule sk0.lhs orig_rhs rest children sk0.weight sk0.ralias]
        (weight - sk0.weight)

/-- `List Char` prefix test (written out so it evaluates in the kernel). -/
def startsWithL : List Char → List Char → Bool
  | _, [] => true
  | [], _ :: _ => false
  | c :: cs, p :: ps => decide (c = p) && startsWithL cs ps

/-- Python `s.startswith(pfx)`. -/
def strStartsWith (s pfx : String) : Bool := startsWithL s.data pfx.data

/-- Splicing of the reverted children (reverts BIN): a child that is a
node whose rule's lhs starts with `__SP_` contributes its children in
place, any other child contributes itself. -/
def spliceSP (reverted : List PTree) : List PTree :=
  reverted.flatMap (fun c =>
    match c with
    | .node r ch _ =>
        if strStartsWith r.lhs.str "__SP_" then ch else [c]
    | .leaf _ => [c])

mutual
/-- `RevertCnf(node)`: undo TERM (unwrap `__T_…` nodes), BIN (splice the
children of `__SP_…` nodes into the parent), and UNIT (unroll
`UnitSkipRule` nodes).  The plain reconstruction `RuleNode(node.rule,
children)` leaves the default `weight=0`. -/
def RevertCnf : PTree → PTree
  | .leaf w => .leaf w
  | .node rule children _w =>
      if strStartsWith rule.lhs.str "__T_" then
        children.headD (.leaf "")   -- node.children[0]
      else
        match rule.skipped with
        | some sk =>
            UnrollUnitSkipRule rule.lhs rule.rhs sk
              (spliceSP (revertChildren children)) rule.weight rule.ralias
        | none => .node rule (spliceSP (revertChildren children)) 0

/-- `[RevertCnf(x) for x in node.children]`. -/
def revertChildren : List PTree → List PTree
  | [] => []
  | c :: cs => RevertCnf c :: revertChildren cs
end

/-- The failure modes of `Parser.parse`: the explicit
`ParseError('Parsing failed.')`, and the dict `KeyError` that a missing
`trees` entry would raise (shown unreachable below whenever the
acceptance check passes). -/
inductive ParseErr where
  | parseError
  | keyError

/-- `Parser.parse(tokenized)` up to the tree conversion: run `_Parse`,
fail with `ParseError` unless some rule with the start symbol as lhs is
in the full-span table cell, then take the best tree for the start symbol
and revert it.  (The final `_ToTree` maps the result into the host
library's `Tree`/`Token` types, which are external to this module.) -/
def parse (M : String → String → Bool) (g : CnfWrapper) (start : Symbol)
    (tokenized : List String) : Except ParseErr PTree :=
  if ((parseTables M tokenized g).table
        (0, (tokenized.length : Int) - 1)).all
      (fun r => !(r.lhs == start)) then
    .error .parseError
  else
    match dictGet? ((parseTables M tokenized g).trees
        (0, (tokenized.length : Int) - 1)) start with
    | some t => .ok (RevertCnf t)
    | none => .error .keyError

/-- C10: on the empty token sequence the full-span cell is `(0, -1)`,
which no phase ever populates, so the acceptance check fails and `parse`
raises `ParseError`, for every grammar, matcher and start symbol. -/
theorem c10_empty_input (M : String → String → Bool) (g : CnfWrapper)
    (start : Symbol) :
    parse M g start [] = .error .parseError := rfl

/-! Dictionary / cell lemmas and monotonicity of the table-filling steps. -/

theorem dictGet?_dictSet_self (d : List (Symbol × PTree)) (k : Symbol) (v : PTree) :
    dictGet? (dictSet d k v) k = some v := by
  induction d with
  | nil => simp [dictSet, dictGet?]
  | cons p rest ih =>
      simp only [dictSet]
      by_cases h : p.1 = k
      · rw [if_pos (by simpa using h)]
        simp [dictGet?]
      · rw [if_neg (by simpa using h)]
        unfold dictGet? at ih ⊢
        rw [List.find?_cons_of_neg _ (by simpa using h)]
        exact ih

theorem dictGet?_dictSet_ne (d : List (Symbol × PTree)) (k k' : Symbol)
    (v : PTree) (h : k' ≠ k) :
    dictGet? (dictSet d k v) k' = dictGet? d k' := by
  induction d with
  | nil =>
      simp only [dictSet]
      unfold dictGet?
      rw [List.find?_cons_of_neg _
        (by simp only [beq_iff_eq]; exact fun e => h e.symm)]
  | cons p rest ih =>
      simp only [dictSet]
      by_cases hp : p.1 = k
      · rw [if_pos (by simpa using hp)]
        unfold dictGet?
        rw [List.find?_cons_of_neg _
            (by simp only [beq_iff_eq]; exact fun e => h e.symm),
          List.find?_cons_of_neg _
            (by simp only [beq_iff_eq]; exact fun e => h (hp ▸ e).symm)]
      · rw [if_neg (by simpa using hp)]
        unfold dictGet? at ih ⊢
        cases hpk : (p.1 == k' : Bool)
        · rw [List.find?_cons_of_neg _ (by simp [hpk]),
            List.find?_cons_of_neg _ (by simp [hpk])]
          exact ih
        · rw [List.find?_cons_of_pos _ (by simp [hpk]),
            List.find?_cons_of_pos _ (by simp [hpk])]

theorem needUpdate_false {d : List (Symbol × PTree)} {k : Symbol} {w : Int}
    (h : needUpdate d k w = false) :
    ∃ t, dictGet? d k = some t ∧ t.wt ≤ w := by
  unfold needUpdate at h
  cases hd : dictGet? d k with
  | none => rw [hd] at h; cases h
  | some t =>
      rw [hd] at h
      refine ⟨t, rfl, ?_⟩
      have := of_decide_eq_false h
      omega

theorem setAdd_subset (cell : List Rule) (r : Rule) : cell ⊆ setAdd cell r := by
  unfold setAdd
  by_cases h : cell.any (fun e => ruleEq e r) = true
  · rw [if_pos h]
    exact List.Subset.refl _
  · rw [if_neg h]
    exact List.subset_append_left _ _

theorem setAdd_hasL (cell : List Rule) (r : Rule) :
    ∃ e ∈ setAdd cell r, e.lhs = r.lhs := by
  unfold setAdd
  by_cases h : cell.any (fun e => ruleEq e r) = true
  · rw [if_pos h]
    obtain ⟨e, he, hEq⟩ := List.any_eq_true.mp h
    exact ⟨e, he, (ruleEq_lhs_rhs hEq).1⟩
  · rw [if_neg h]
    exact ⟨r, by simp, rfl⟩

/-- Monotone evolution of the two tables: table cells only gain members,
and stored best trees never get heavier (a key, once present, stays
present). -/
def StMono (st st' : PTables) : Prop :=
  (∀ sp, st.table sp ⊆ st'.table sp) ∧
  (∀ sp k t, dictGet? (st.trees sp) k = some t →
     ∃ t', dictGet? (st'.trees sp) k = some t' ∧ t'.wt ≤ t.wt)

theorem stMono_refl (st : PTables) : StMono st st :=
  ⟨fun _ => List.Subset.refl _, fun _ _ t h => ⟨t, h, le_refl _⟩⟩

theorem stMono_trans {s1 s2 s3 : PTables} (h1 : StMono s1 s2)
    (h2 : StMono s2 s3) : StMono s1 s3 := by
  refine ⟨fun sp => (h1.1 sp).trans (h2.1 sp), fun sp k t ht => ?_⟩
  obtain ⟨t', ht', hw'⟩ := h1.2 sp k t ht
  obtain ⟨t'', ht'', hw''⟩ := h2.2 sp k t' ht'
  exact ⟨t'', ht'', le_trans hw'' hw'⟩

theorem updTable_mono (st : PTables) (sp : Int × Int) (r : Rule) :
    StMono st (updTable st sp r) := by
  constructor
  · intro sp'
    unfold updTable
    by_cases h : sp' = sp
    · subst h
      simp only [if_pos rfl]
      exact setAdd_subset _ _
    · simp only [if_neg h]
      exact List.Subset.refl _
  · intro sp' k t ht
    exact ⟨t, ht, le_refl _⟩

theorem updTree_mono_of_needUpdate {st : PTables} {sp : Int × Int}
    {k : Symbol} {v : PTree}
    (h : needUpdate (st.trees sp) k v.wt = true) :
    StMono st (updTree st sp k v) := by
  constructor
  · intro sp'
    exact List.Subset.refl _
  · intro sp' k' t ht
    unfold updTree
    simp only
    by_cases hsp : sp' = sp
    · rw [if_pos hsp]
      subst hsp
      by_cases hk : k' = k
      · subst hk
        unfold needUpdate at h
        rw [ht] at h
        have hlt : v.wt < t.wt := of_decide_eq_true h
        exact ⟨v, dictGet?_dictSet_self _ _ _, le_of_lt hlt⟩
      · rw [dictGet?_dictSet_ne _ _ _ _ hk]
        exact ⟨t, ht, le_refl _⟩
    · rw [if_neg hsp]
      exact ⟨t, ht, le_refl _⟩

theorem baseRuleStep_mono (sp : Int × Int) (w : String) (st : PTables)
    (rule : Rule) : StMono st (baseRuleStep sp w st rule) := by
  unfold baseRuleStep
  refine stMono_trans (updTable_mono st sp rule) ?_
  by_cases h : needUpdate ((updTable st sp rule).trees sp) rule.lhs rule.weight = true
  · rw [if_pos h]
    exact updTree_mono_of_needUpdate h
  · rw [if_neg h]
    exact stMono_refl _

theorem foldl_mono {α : Type _} {f : PTables → α → PTables} {l : List α}
    (h : ∀ st a, a ∈ l → StMono st (f st a)) :
    ∀ st, StMono st (l.foldl f st) := by
  induction l with
  | nil => intro st; exact stMono_refl st
  | cons a l' ih =>
      intro st
      rw [List.foldl_cons]
      refine stMono_trans (h st a (by simp)) ?_
      exact ih (fun st' b hb => h st' b (List.mem_cons_of_mem _ hb)) (f st a)

theorem foldl_inv {α : Type _} (P : PTables → Prop) {f : PTables → α → PTables}
    {l : List α} (h : ∀ st a, a ∈ l → P st → P (f st a)) :
    ∀ st, P st → P (l.foldl f st) := by
  induction l with
  | nil => intro st h0; exact h0
  | cons a l' ih =>
      intro st h0
      rw [List.foldl_cons]
      exact ih (fun st' b hb => h st' b (List.mem_cons_of_mem _ hb)) (f st a)
        (h st a (by simp) h0)

theorem foldl_establish {α : Type _} {f : PTables → α → PTables} {l : List α}
    {x : α} (hx : x ∈ l)
    (hmono : ∀ st a, a ∈ l → StMono st (f st a))
    (P E : PTables → Prop)
    (hP : ∀ st st', StMono st st' → P st → P st')
    (hE : ∀ st st', StMono st st' → E st → E st')
    (hest : ∀ st, P st → E (f st x)) :
    ∀ st, P st → E (l.foldl f st) := by
  induction l with
  | nil => cases hx
  | cons a l' ih =>
      intro st hPst
      rw [List.foldl_cons]
      rcases List.mem_cons.mp hx with rfl | hx'
      · have hE1 : E (f st x) := hest st hPst
        have hm : StMono (f st x) (l'.foldl f (f st x)) :=
          foldl_mono (fun st' b hb => hmono st' b (List.mem_cons_of_mem _ hb)) _
        exact hE _ _ hm hE1
      · exact ih hx' (fun st' b hb => hmono st' b (List.mem_cons_of_mem _ hb))
          (f st a) (hP st _ (hmono st a (by simp)) hPst)

/-- "Some rule with lhs `X` is in the table cell `sp`." -/
def HasL (st : PTables) (sp : Int × Int) (X : Symbol) : Prop :=
  ∃ e ∈ st.table sp, e.lhs = X

/-- "The best-tree dict at `sp` stores a tree for `X` of weight ≤ `w`." -/
def HasT (st : PTables) (sp : Int × Int) (X : Symbol) (w : Int) : Prop :=
  ∃ t, dictGet? (st.trees sp) X = some t ∧ t.wt ≤ w

theorem HasL_mono {st st' : PTables} {sp : Int × Int} {X : Symbol}
    (hm : StMono st st') (h : HasL st sp X) : HasL st' sp X := by
  obtain ⟨e, he, hl⟩ := h
  exact ⟨e, hm.1 sp he, hl⟩

theorem HasT_mono {st st' : PTables} {sp : Int × Int} {X : Symbol} {w : Int}
    (hm : StMono st st') (h : HasT st sp X w) : HasT st' sp X w := by
  obtain ⟨t, ht, hw⟩ := h
  obtain ⟨t', ht', hw'⟩ := hm.2 sp X t ht
  exact ⟨t', ht', le_trans hw' hw⟩

theorem HasT_weaken {st : PTables} {sp : Int × Int} {X : Symbol} {w w' : Int}
    (hw : w ≤ w') (h : HasT st sp X w) : HasT st sp X w' := by
  obtain ⟨t, ht, hwt⟩ := h
  exact ⟨t, ht, le_trans hwt hw⟩

theorem binRuleInner_mono (span1 span2 spT : Int × Int) (r1 r2 : Rule)
    (st : PTables) (rule : Rule) :
    StMono st (binRuleInner span1 span2 spT r1 r2 st rule) := by
  unfold binRuleInner binRuleTree
  refine stMono_trans (updTable_mono st spT rule) ?_
  split
  · split
    · next hneed => exact updTree_mono_of_needUpdate hneed
    · exact stMono_refl _
  · exact stMono_refl _

theorem binRuleStep_mono (trg : List ((Symbol × Symbol) × List Rule))
    (span1 span2 spT : Int × Int) (st : PTables) (r1 r2 : Rule) :
    StMono st (binRuleStep trg span1 span2 spT st r1 r2) :=
  foldl_mono (fun st' rule _ => binRuleInner_mono span1 span2 spT r1 r2 st' rule) st

theorem binStep_mono (trg : List ((Symbol × Symbol) × List Rule))
    (st : PTables) (i l p : Nat) : StMono st (binStep trg st i l p) := by
  unfold binStep
  refine foldl_mono (fun st' r1 _ => ?_) st
  exact foldl_mono (fun st'' r2 _ => binRuleStep_mono _ _ _ _ st'' r1 r2) st'

theorem phaseL_mono (trg : List ((Symbol × Symbol) × List Rule)) (n l : Nat)
    (st : PTables) : StMono st (phaseL trg n l st) := by
  unfold phaseL
  refine foldl_mono (fun st' i _ => ?_) st
  exact foldl_mono (fun st'' p _ => binStep_mono trg st'' i l p) st'

theorem stAfter_succ (M : String → String → Bool) (g : CnfWrapper)
    (s : List String) (m : Nat) (hm : 1 ≤ m) :
    stAfter M g s (m + 1) = phaseL g.nonterminal_rules s.length (m + 1) (stAfter M g s m) := by
  unfold stAfter
  have h1 : m + 1 - 1 = (m - 1) + 1 := by omega
  rw [h1, List.range'_concat]
  rw [List.foldl_append]
  have h2 : 2 + 1 * (m - 1) = m + 1 := by omega
  rw [h2]
  rfl

theorem stAfter_mono (M : String → String → Bool) (g : CnfWrapper)
    (s : List String) {m m' : Nat} (h : m ≤ m') :
    StMono (stAfter M g s m) (stAfter M g s m') := by
  unfold stAfter
  have hdecomp : List.range' 2 (m' - 1) =
      List.range' 2 (m - 1) ++ List.range' (2 + 1 * (m - 1)) ((m' - 1) - (m - 1)) := by
    rw [List.range'_append]
    congr 1
    omega
  rw [hdecomp, List.foldl_append]
  exact foldl_mono (fun st' l _ => phaseL_mono _ _ _ st') _

theorem updTable_table_self (st : PTables) (sp : Int × Int) (r : Rule) :
    (updTable st sp r).table sp = setAdd (st.table sp) r := by
  unfold updTable
  simp

theorem updTree_trees_self (st : PTables) (sp : Int × Int) (k : Symbol)
    (v : PTree) : (updTree st sp k v).trees sp = dictSet (st.trees sp) k v := by
  unfold updTree
  simp

theorem baseRuleStep_est (sp : Int × Int) (w : String) (st : PTables)
    (rule : Rule) :
    HasL (baseRuleStep sp w st rule) sp rule.lhs ∧
    HasT (baseRuleStep sp w st rule) sp rule.lhs rule.weight := by
  unfold baseRuleStep
  by_cases h : needUpdate ((updTable st sp rule).trees sp) rule.lhs rule.weight = true
  · rw [if_pos h]
    constructor
    · unfold HasL
      rw [show (updTree (updTable st sp rule) sp rule.lhs
            (.node rule [.leaf w] rule.weight)).table = (updTable st sp rule).table
          from rfl,
        updTable_table_self]
      exact setAdd_hasL _ _
    · unfold HasT
      rw [updTree_trees_self]
      exact ⟨_, dictGet?_dictSet_self _ _ _, le_refl rule.weight⟩
  · rw [if_neg h]
    constructor
    · unfold HasL
      rw [updTable_table_self]
      exact setAdd_hasL _ _
    · exact needUpdate_false (Bool.not_eq_true _ ▸ h)

theorem binRuleTree_eq_of_some {span1 span2 spT : Int × Int} {r1 r2 : Rule}
    {st1 : PTables} {rule : Rule} {t1 t2 : PTree}
    (ht1 : dictGet? (st1.trees span1) r1.lhs = some t1)
    (ht2 : dictGet? (st1.trees span2) r2.lhs = some t2) :
    binRuleTree span1 span2 spT r1 r2 st1 rule =
      if needUpdate (st1.trees spT) rule.lhs (rule.weight + t1.wt + t2.wt) then
        updTree st1 spT rule.lhs
          (.node rule [t1, t2] (rule.weight + t1.wt + t2.wt))
      else st1 := by
  unfold binRuleTree
  rw [ht1, ht2]

theorem binRuleInner_est (span1 span2 spT : Int × Int) (r1 r2 : Rule)
    (st : PTables) (rule : Rule) {w1 w2 : Int}
    (h1 : HasT st span1 r1.lhs w1) (h2 : HasT st span2 r2.lhs w2) :
    HasL (binRuleInner span1 span2 spT r1 r2 st rule) spT rule.lhs ∧
    HasT (binRuleInner span1 span2 spT r1 r2 st rule) spT rule.lhs
      (rule.weight + w1 + w2) := by
  obtain ⟨t1, ht1, hw1⟩ := h1
  obtain ⟨t2, ht2, hw2⟩ := h2
  unfold binRuleInner
  -- `updTable` leaves `trees` unchanged
  have ht1' : dictGet? ((updTable st spT rule).trees span1) r1.lhs = some t1 := ht1
  have ht2' : dictGet? ((updTable st spT rule).trees span2) r2.lhs = some t2 := ht2
  rw [binRuleTree_eq_of_some ht1' ht2']
  by_cases h : needUpdate ((updTable st spT rule).trees spT) rule.lhs
      (rule.weight + t1.wt + t2.wt) = true
  · rw [if_pos h]
    constructor
    · unfold HasL
      rw [show (updTree (updTable st spT rule) spT rule.lhs
            (.node rule [t1, t2] (rule.weight + t1.wt + t2.wt))).table
          = (updTable st spT rule).table from rfl,
        updTable_table_self]
      exact setAdd_hasL _ _
    · unfold HasT
      rw [updTree_trees_self]
      refine ⟨_, dictGet?_dictSet_self _ _ _, ?_⟩
      show rule.weight + t1.wt + t2.wt ≤ rule.weight + w1 + w2
      omega
  · rw [if_neg h]
    constructor
    · unfold HasL
      rw [updTable_table_self]
      exact setAdd_hasL _ _
    · obtain ⟨t, ht, hw⟩ := needUpdate_false (Bool.not_eq_true _ ▸ h)
      exact ⟨t, ht, by omega⟩

theorem binRuleStep_est (trg : List ((Symbol × Symbol) × List Rule))
    (span1 span2 spT : Int × Int) (r1 r2 : Rule) (rule : Rule)
    (hrule : rule ∈ assocGet trg (r1.lhs, r2.lhs)) {w1 w2 : Int} :
    ∀ st : PTables, (HasT st span1 r1.lhs w1 ∧ HasT st span2 r2.lhs w2) →
      HasL (binRuleStep trg span1 span2 spT st r1 r2) spT rule.lhs ∧
      HasT (binRuleStep trg span1 span2 spT st r1 r2) spT rule.lhs
        (rule.weight + w1 + w2) := by
  refine foldl_establish hrule
    (fun st' a _ => binRuleInner_mono span1 span2 spT r1 r2 st' a)
    (fun st' => HasT st' span1 r1.lhs w1 ∧ HasT st' span2 r2.lhs w2)
    (fun st' => HasL st' spT rule.lhs ∧
      HasT st' spT rule.lhs (rule.weight + w1 + w2))
    (fun st' st'' hm hp => ⟨HasT_mono hm hp.1, HasT_mono hm hp.2⟩)
    (fun st' st'' hm he => ⟨HasL_mono hm he.1, HasT_mono hm he.2⟩)
    (fun st' hp => binRuleInner_est span1 span2 spT r1 r2 st' rule hp.1 hp.2)

theorem binStep_est (trg : List ((Symbol × Symbol) × List Rule))
    (i l p : Nat) (A B : Symbol) (rule : Rule)
    (hrule : rule ∈ assocGet trg (A, B)) {w1 w2 : Int} (st : PTables)
    (hA : HasL st ((i : Int), (p : Int) - 1) A)
    (hB : HasL st ((p : Int), (i : Int) + (l : Int) - 1) B)
    (h1 : HasT st ((i : Int), (p : Int) - 1) A w1)
    (h2 : HasT st ((p : Int), (i : Int) + (l : Int) - 1) B w2) :
    HasL (binStep trg st i l p) ((i : Int), (i : Int) + (l : Int) - 1) rule.lhs ∧
    HasT (binStep trg st i l p) ((i : Int), (i : Int) + (l : Int) - 1) rule.lhs
      (rule.weight + w1 + w2) := by
  obtain ⟨rA, hrA, hrAl⟩ := hA
  obtain ⟨rB, hrB, hrBl⟩ := hB
  unfold binStep
  refine foldl_establish hrA
    (fun st' a _ => foldl_mono
      (fun st'' b _ => binRuleStep_mono trg _ _ _ st'' a b) st')
    (fun st' => HasT st' ((i : Int), (p : Int) - 1) A w1 ∧
      HasT st' ((p : Int), (i : Int) + (l : Int) - 1) B w2)
    (fun st' => HasL st' ((i : Int), (i : Int) + (l : Int) - 1) rule.lhs ∧
      HasT st' ((i : Int), (i : Int) + (l : Int) - 1) rule.lhs
        (rule.weight + w1 + w2))
    (fun st' st'' hm hp => ⟨HasT_mono hm hp.1, HasT_mono hm hp.2⟩)
    (fun st' st'' hm he => ⟨HasL_mono hm he.1, HasT_mono hm he.2⟩)
    ?_ st ⟨h1, h2⟩
  intro st' hp
  refine foldl_establish hrB
    (fun st'' b _ => binRuleStep_mono trg _ _ _ st'' rA b)
    (fun st'' => HasT st'' ((i : Int), (p : Int) - 1) A w1 ∧
      HasT st'' ((p : Int), (i : Int) + (l : Int) - 1) B w2)
    (fun st'' => HasL st'' ((i : Int), (i : Int) + (l : Int) - 1) rule.lhs ∧
      HasT st'' ((i : Int), (i : Int) + (l : Int) - 1) rule.lhs
        (rule.weight + w1 + w2))
    (fun st'' st''' hm hp' => ⟨HasT_mono hm hp'.1, HasT_mono hm hp'.2⟩)
    (fun st'' st''' hm he => ⟨HasL_mono hm he.1, HasT_mono hm he.2⟩)
    ?_ st' hp
  intro st'' hp'
  have hrule' : rule ∈ assocGet trg (rA.lhs, rB.lhs) := by
    rw [hrAl, hrBl]
    exact hrule
  refine binRuleStep_est trg _ _ _ rA rB rule hrule' st'' ?_
  rw [hrAl, hrBl]
  exact hp'

theorem baseStep_mono (M : String → String → Bool)
    (tr : List (Symbol × List Rule)) (st : PTables) (iw : Nat × String) :
    StMono st (baseStep M tr st iw) := by
  unfold baseStep
  refine foldl_mono (fun st' q _ => ?_) st
  by_cases h : M q.1.str iw.2 = true
  · rw [if_pos h]
    exact foldl_mono (fun st'' r _ => baseRuleStep_mono _ _ st'' r) st'
  · rw [if_neg h]
    exact stMono_refl _

theorem phaseL_est (trg : List ((Symbol × Symbol) × List Rule))
    (n l i p : Nat) (hi : i < n - l + 1) (hp1 : i + 1 ≤ p) (hp2 : p < i + l)
    (A B : Symbol) (rule : Rule) (hrule : rule ∈ assocGet trg (A, B))
    {w1 w2 : Int} (st : PTables)
    (hA : HasL st ((i : Int), (p : Int) - 1) A)
    (hB : HasL st ((p : Int), (i : Int) + (l : Int) - 1) B)
    (h1 : HasT st ((i : Int), (p : Int) - 1) A w1)
    (h2 : HasT st ((p : Int), (i : Int) + (l : Int) - 1) B w2) :
    HasL (phaseL trg n l st) ((i : Int), (i : Int) + (l : Int) - 1) rule.lhs ∧
    HasT (phaseL trg n l st) ((i : Int), (i : Int) + (l : Int) - 1) rule.lhs
      (rule.weight + w1 + w2) := by
  unfold phaseL
  refine foldl_establish (List.mem_range.mpr hi)
    (fun st' a _ => foldl_mono (fun st'' b _ => binStep_mono trg st'' a l b) st')
    (fun st' => HasL st' ((i : Int), (p : Int) - 1) A ∧
      HasL st' ((p : Int), (i : Int) + (l : Int) - 1) B ∧
      HasT st' ((i : Int), (p : Int) - 1) A w1 ∧
      HasT st' ((p : Int), (i : Int) + (l : Int) - 1) B w2)
    (fun st' => HasL st' ((i : Int), (i : Int) + (l : Int) - 1) rule.lhs ∧
      HasT st' ((i : Int), (i : Int) + (l : Int) - 1) rule.lhs
        (rule.weight + w1 + w2))
    (fun st' st'' hm hp => ⟨HasL_mono hm hp.1, HasL_mono hm hp.2.1,
      HasT_mono hm hp.2.2.1, HasT_mono hm hp.2.2.2⟩)
    (fun st' st'' hm he => ⟨HasL_mono hm he.1, HasT_mono hm he.2⟩)
    ?_ st ⟨hA, hB, h1, h2⟩
  intro st' hp
  refine foldl_establish (List.mem_range'_1.mpr ⟨hp1, by omega⟩)
    (fun st'' b _ => binStep_mono trg st'' i l b)
    (fun st'' => HasL st'' ((i : Int), (p : Int) - 1) A ∧
      HasL st'' ((p : Int), (i : Int) + (l : Int) - 1) B ∧
      HasT st'' ((i : Int), (p : Int) - 1) A w1 ∧
      HasT st'' ((p : Int), (i : Int) + (l : Int) - 1) B w2)
    (fun st'' => HasL st'' ((i : Int), (i : Int) + (l : Int) - 1) rule.lhs ∧
      HasT st'' ((i : Int), (i : Int) + (l : Int) - 1) rule.lhs
        (rule.weight + w1 + w2))
    (fun st'' st''' hm hp' => ⟨HasL_mono hm hp'.1, HasL_mono hm hp'.2.1,
      HasT_mono hm hp'.2.2.1, HasT_mono hm hp'.2.2.2⟩)
    (fun st'' st''' hm he => ⟨HasL_mono hm he.1, HasT_mono hm he.2⟩)
    ?_ st' hp
  intro st'' hp'
  exact binStep_est trg i l p A B rule hrule st'' hp'.1 hp'.2.1 hp'.2.2.1 hp'.2.2.2

theorem stAfter_one (M : String → String → Bool) (g : CnfWrapper)
    (s : List String) :
    stAfter M g s 1
      = s.enum.foldl (baseStep M g.terminal_rules) ⟨fun _ => [], fun _ => []⟩ := rfl

theorem stAfter_base_est (M : String → String → Bool) (g : CnfWrapper)
    (s : List String) (i : Nat) (wtok : String) (terminal : Symbol)
    (rules : List Rule) (rule : Rule)
    (hw : s.get? i = some wtok) (hterm : (terminal, rules) ∈ g.terminal_rules)
    (hrule : rule ∈ rules) (hM : M terminal.str wtok = true) :
    HasL (stAfter M g s 1) ((i : Int), (i : Int)) rule.lhs ∧
    HasT (stAfter M g s 1) ((i : Int), (i : Int)) rule.lhs rule.weight := by
  rw [stAfter_one]
  refine foldl_establish (List.mk_mem_enum_iff_get?.mpr hw)
    (fun st' a _ => baseStep_mono M g.terminal_rules st' a)
    (fun _ => True)
    (fun st' => HasL st' ((i : Int), (i : Int)) rule.lhs ∧
      HasT st' ((i : Int), (i : Int)) rule.lhs rule.weight)
    (fun _ _ _ _ => trivial)
    (fun st' st'' hm he => ⟨HasL_mono hm he.1, HasT_mono hm he.2⟩)
    ?_ _ trivial
  intro st hp
  unfold baseStep
  refine foldl_establish hterm
    (fun st' q _ => ?hm)
    (fun _ => True)
    (fun st' => HasL st' ((i : Int), (i : Int)) rule.lhs ∧
      HasT st' ((i : Int), (i : Int)) rule.lhs rule.weight)
    (fun _ _ _ _ => trivial)
    (fun st' st'' hm he => ⟨HasL_mono hm he.1, HasT_mono hm he.2⟩)
    ?_ st trivial
  case hm =>
    by_cases h : M q.1.str (i, wtok).2 = true
    · rw [if_pos h]
      exact foldl_mono (fun st'' r _ => baseRuleStep_mono _ _ st'' r) st'
    · rw [if_neg h]
      exact stMono_refl _
  intro st' _
  show HasL (if M terminal.str (i, wtok).2 = true then _ else st') _ _ ∧ _
  rw [if_pos hM]
  refine foldl_establish hrule
    (fun st'' r _ => baseRuleStep_mono _ _ st'' r)
    (fun _ => True)
    (fun st'' => HasL st'' ((i : Int), (i : Int)) rule.lhs ∧
      HasT st'' ((i : Int), (i : Int)) rule.lhs rule.weight)
    (fun _ _ _ _ => trivial)
    (fun st'' st''' hm he => ⟨HasL_mono hm he.1, HasT_mono hm he.2⟩)
    (fun st'' _ => baseRuleStep_est ((i : Int), (i : Int)) wtok st'' rule)
    st' trivial

/-- A CYK derivation of non-terminal `X` over the (inclusive) token span
`(i, j)`, with its cumulative weight: either a terminal rule of
`terminal_rules` whose terminal matches token `i`, or a binary rule of
`nonterminal_rules` over a split point `p`, combining derivations of the
two sub-spans.  The weight of a derivation is the sum of the weights of
all rules used. -/
inductive Deriv (M : String → String → Bool) (g : CnfWrapper)
    (s : List String) : Nat → Nat → Symbol → Int → Prop where
  | term {i : Nat} {w : String} {terminal : Symbol} {rules : List Rule}
      {rule : Rule} :
      s.get? i = some w → (terminal, rules) ∈ g.terminal_rules →
      rule ∈ rules → M terminal.str w = true →
      Deriv M g s i i rule.lhs rule.weight
  | bin {i p j : Nat} {A B : Symbol} {rule : Rule} {w1 w2 : Int} :
      rule ∈ assocGet g.nonterminal_rules (A, B) →
      i + 1 ≤ p → p ≤ j →
      Deriv M g s i (p - 1) A w1 → Deriv M g s p j B w2 →
      Deriv M g s i j rule.lhs (rule.weight + w1 + w2)

theorem Deriv.bounds {M : String → String → Bool} {g : CnfWrapper}
    {s : List String} {i j : Nat} {X : Symbol} {w : Int}
    (h : Deriv M g s i j X w) : i ≤ j ∧ j < s.length := by
  induction h with
  | term hw _ _ _ =>
      refine ⟨le_refl _, ?_⟩
      exact (List.get?_eq_some.mp hw).1
  | bin _ hp1 hp2 _ _ ih1 ih2 =>
      exact ⟨le_trans (by omega) hp2, ih2.2⟩

theorem deriv_est {M : String → String → Bool} {g : CnfWrapper}
    {s : List String} {i j : Nat} {X : Symbol} {w : Int}
    (hD : Deriv M g s i j X w) :
    HasL (stAfter M g s (j - i + 1)) ((i : Int), (j : Int)) X ∧
    HasT (stAfter M g s (j - i + 1)) ((i : Int), (j : Int)) X w := by
  induction hD with
  | term hw hterm hrule hM =>
      rename_i i' w' terminal rules rule
      rw [show i' - i' + 1 = 1 from by omega]
      exact stAfter_base_est M g s i' w' terminal rules rule hw hterm hrule hM
  | bin hrule hp1 hp2 hd1 hd2 ih1 ih2 =>
      rename_i i' p j' A B rule w1 w2
      have hb2 := hd2.bounds
      have hb1 := hd1.bounds
      have hjn : j' < s.length := hb2.2
      have hl1 : (p - 1) - i' + 1 = p - i' := by omega
      have hl2 : j' - p + 1 ≤ j' - i' := by omega
      have hcast1 : ((p - 1 : Nat) : Int) = (p : Int) - 1 := by omega
      -- transport the two sub-facts to the state entering phase `j'-i'+1`
      have hm1 : StMono (stAfter M g s (p - i')) (stAfter M g s (j' - i')) :=
        stAfter_mono M g s (by omega)
      have hm2 : StMono (stAfter M g s (j' - p + 1)) (stAfter M g s (j' - i')) :=
        stAfter_mono M g s hl2
      rw [hl1] at ih1
      have hA : HasL (stAfter M g s (j' - i')) ((i' : Int), (p : Int) - 1) A := by
        have := HasL_mono hm1 ih1.1
        rwa [hcast1] at this
      have h1 : HasT (stAfter M g s (j' - i')) ((i' : Int), (p : Int) - 1) A w1 := by
        have := HasT_mono hm1 ih1.2
        rwa [hcast1] at this
      have hB := HasL_mono hm2 ih2.1
      have h2 := HasT_mono hm2 ih2.2
      -- enter the phase for length `l = j' - i' + 1`
      have hstep : stAfter M g s (j' - i' + 1)
          = phaseL g.nonterminal_rules s.length (j' - i' + 1)
              (stAfter M g s (j' - i')) := by
        have := stAfter_succ M g s (j' - i') (by omega)
        exact this
      rw [hstep]
      have hcast2 : (i' : Int) + ((j' - i' + 1 : Nat) : Int) - 1 = (j' : Int) := by
        omega
      have hres := phaseL_est g.nonterminal_rules s.length (j' - i' + 1) i' p
        (by omega) hp1 (by omega) A B rule hrule (stAfter M g s (j' - i'))
        hA (by rwa [hcast2]) h1 (by rwa [hcast2])
      rw [hcast2] at hres
      exact hres

theorem updTable_table_ne (st : PTables) (sp sp' : Int × Int) (r : Rule)
    (h : sp' ≠ sp) : (updTable st sp r).table sp' = st.table sp' := by
  unfold updTable
  simp [h]

theorem updTree_trees_ne (st : PTables) (sp sp' : Int × Int) (k : Symbol)
    (v : PTree) (h : sp' ≠ sp) :
    (updTree st sp k v).trees sp' = st.trees sp' := by
  unfold updTree
  simp [h]

theorem mem_setAdd {cell : List Rule} {r x : Rule} (h : x ∈ setAdd cell r) :
    x ∈ cell ∨ x = r := by
  unfold setAdd at h
  by_cases hc : cell.any (fun e => ruleEq e r) = true
  · rw [if_pos hc] at h
    exact Or.inl h
  · rw [if_neg hc] at h
    rcases List.mem_append.mp h with h' | h'
    · exact Or.inl h'
    · exact Or.inr (List.mem_singleton.mp h')

theorem dictGet?_isSome_dictSet (d : List (Symbol × PTree)) (k k' : Symbol)
    (v : PTree) (h : (dictGet? d k').isSome = true ∨ k' = k) :
    (dictGet? (dictSet d k v) k').isSome = true := by
  by_cases hk : k' = k
  · subst hk
    rw [dictGet?_dictSet_self]
    rfl
  · rw [dictGet?_dictSet_ne _ _ _ _ hk]
    rcases h with h | h
    · exact h
    · exact absurd h hk

/-- The `KeyError` invariant: every rule in a table cell has a stored
best tree for its lhs in the corresponding trees cell. -/
def KInv (st : PTables) : Prop :=
  ∀ sp r, r ∈ st.table sp → (dictGet? (st.trees sp) r.lhs).isSome = true

theorem kinv_updTree_updTable {st : PTables} {sp : Int × Int} {rule : Rule}
    {v : PTree} (hk : KInv st) :
    KInv (updTree (updTable st sp rule) sp rule.lhs v) := by
  intro sp' r' hr'
  have hr'' : r' ∈ (updTable st sp rule).table sp' := hr'
  by_cases hsp : sp' = sp
  · subst hsp
    rw [updTable_table_self] at hr''
    rw [updTree_trees_self]
    rcases mem_setAdd hr'' with h | h
    · exact dictGet?_isSome_dictSet _ _ _ _ (Or.inl (hk sp' r' h))
    · subst h
      exact dictGet?_isSome_dictSet _ _ _ _ (Or.inr rfl)
  · rw [updTable_table_ne _ _ _ _ hsp] at hr''
    rw [updTree_trees_ne _ _ _ _ _ hsp]
    exact hk sp' r' hr''

theorem kinv_updTable_of_some {st : PTables} {sp : Int × Int} {rule : Rule}
    (hk : KInv st)
    (hsome : (dictGet? (st.trees sp) rule.lhs).isSome = true) :
    KInv (updTable st sp rule) := by
  intro sp' r' hr'
  by_cases hsp : sp' = sp
  · subst hsp
    rw [updTable_table_self] at hr'
    rcases mem_setAdd hr' with h | h
    · exact hk sp' r' h
    · subst h
      exact hsome
  · rw [updTable_table_ne _ _ _ _ hsp] at hr'
    exact hk sp' r' hr'

theorem baseRuleStep_kinv (sp : Int × Int) (w : String) (st : PTables)
    (rule : Rule) (hk : KInv st) : KInv (baseRuleStep sp w st rule) := by
  unfold baseRuleStep
  by_cases h : needUpdate ((updTable st sp rule).trees sp) rule.lhs rule.weight = true
  · rw [if_pos h]
    exact kinv_updTree_updTable hk
  · rw [if_neg h]
    obtain ⟨t, ht, -⟩ := needUpdate_false (Bool.not_eq_true _ ▸ h)
    refine kinv_updTable_of_some hk ?_
    have ht' : dictGet? (st.trees sp) rule.lhs = some t := ht
    rw [ht']
    rfl

theorem binRuleInner_kinv (span1 span2 spT : Int × Int) (r1 r2 : Rule)
    (st : PTables) (rule : Rule) (hk : KInv st)
    (h1 : (dictGet? (st.trees span1) r1.lhs).isSome = true)
    (h2 : (dictGet? (st.trees span2) r2.lhs).isSome = true) :
    KInv (binRuleInner span1 span2 spT r1 r2 st rule) := by
  obtain ⟨t1, ht1⟩ := Option.isSome_iff_exists.mp h1
  obtain ⟨t2, ht2⟩ := Option.isSome_iff_exists.mp h2
  unfold binRuleInner
  have ht1' : dictGet? ((updTable st spT rule).trees span1) r1.lhs = some t1 := ht1
  have ht2' : dictGet? ((updTable st spT rule).trees span2) r2.lhs = some t2 := ht2
  rw [binRuleTree_eq_of_some ht1' ht2']
  by_cases h : needUpdate ((updTable st spT rule).trees spT) rule.lhs
      (rule.weight + t1.wt + t2.wt) = true
  · rw [if_pos h]
    exact kinv_updTree_updTable hk
  · rw [if_neg h]
    obtain ⟨t, ht, -⟩ := needUpdate_false (Bool.not_eq_true _ ▸ h)
    refine kinv_updTable_of_some hk ?_
    have ht' : dictGet? (st.trees spT) rule.lhs = some t := ht
    rw [ht']
    rfl

theorem binRuleStep_kinv (trg : List ((Symbol × Symbol) × List Rule))
    (span1 span2 spT : Int × Int) (r1 r2 : Rule) (st : PTables)
    (hk : KInv st)
    (h1 : (dictGet? (st.trees span1) r1.lhs).isSome = true)
    (h2 : (dictGet? (st.trees span2) r2.lhs).isSome = true) :
    KInv (binRuleStep trg span1 span2 spT st r1 r2) := by
  unfold binRuleStep
  have hstep : ∀ (st' : PTables) (a : Rule), a ∈ assocGet trg (r1.lhs, r2.lhs) →
      (KInv st' ∧ StMono st st') →
      (KInv (binRuleInner span1 span2 spT r1 r2 st' a) ∧
        StMono st (binRuleInner span1 span2 spT r1 r2 st' a)) := by
    intro st' a _ hP
    obtain ⟨t1, ht1⟩ := Option.isSome_iff_exists.mp h1
    obtain ⟨t2, ht2⟩ := Option.isSome_iff_exists.mp h2
    obtain ⟨t1', ht1', -⟩ := hP.2.2 span1 r1.lhs t1 ht1
    obtain ⟨t2', ht2', -⟩ := hP.2.2 span2 r2.lhs t2 ht2
    refine ⟨binRuleInner_kinv span1 span2 spT r1 r2 st' a hP.1
      (by rw [ht1']; rfl) (by rw [ht2']; rfl), ?_⟩
    exact stMono_trans hP.2 (binRuleInner_mono span1 span2 spT r1 r2 st' a)
  exact (foldl_inv (fun st' => KInv st' ∧ StMono st st') hstep st
    ⟨hk, stMono_refl st⟩).1

theorem binStep_kinv (trg : List ((Symbol × Symbol) × List Rule))
    (st : PTables) (i l p : Nat) (hk : KInv st) :
    KInv (binStep trg st i l p) := by
  unfold binStep
  have hstep : ∀ (st' : PTables) (r1 : Rule),
      r1 ∈ st.table ((i : Int), (p : Int) - 1) →
      (KInv st' ∧ StMono st st') →
      (KInv ((st.table ((p : Int), (i : Int) + (l : Int) - 1)).foldl
          (fun st'' r2 => binRuleStep trg ((i : Int), (p : Int) - 1)
            ((p : Int), (i : Int) + (l : Int) - 1)
            ((i : Int), (i : Int) + (l : Int) - 1) st'' r1 r2) st') ∧
        StMono st ((st.table ((p : Int), (i : Int) + (l : Int) - 1)).foldl
          (fun st'' r2 => binRuleStep trg ((i : Int), (p : Int) - 1)
            ((p : Int), (i : Int) + (l : Int) - 1)
            ((i : Int), (i : Int) + (l : Int) - 1) st'' r1 r2) st')) := by
    intro st' r1 hr1 hP
    have hstep2 : ∀ (st'' : PTables) (r2 : Rule),
        r2 ∈ st.table ((p : Int), (i : Int) + (l : Int) - 1) →
        (KInv st'' ∧ StMono st st'') →
        (KInv (binRuleStep trg ((i : Int), (p : Int) - 1)
            ((p : Int), (i : Int) + (l : Int) - 1)
            ((i : Int), (i : Int) + (l : Int) - 1) st'' r1 r2) ∧
          StMono st (binRuleStep trg ((i : Int), (p : Int) - 1)
            ((p : Int), (i : Int) + (l : Int) - 1)
            ((i : Int), (i : Int) + (l : Int) - 1) st'' r1 r2)) := by
      intro st'' r2 hr2 hQ
      have hs1 : (dictGet? (st.trees ((i : Int), (p : Int) - 1)) r1.lhs).isSome
          = true := hk _ r1 hr1
      have hs2 : (dictGet? (st.trees ((p : Int), (i : Int) + (l : Int) - 1)) r2.lhs).isSome
          = true := hk _ r2 hr2
      obtain ⟨t1, ht1⟩ := Option.isSome_iff_exists.mp hs1
      obtain ⟨t2, ht2⟩ := Option.isSome_iff_exists.mp hs2
      obtain ⟨t1', ht1', -⟩ := hQ.2.2 _ r1.lhs t1 ht1
      obtain ⟨t2', ht2', -⟩ := hQ.2.2 _ r2.lhs t2 ht2
      refine ⟨binRuleStep_kinv trg _ _ _ r1 r2 st'' hQ.1
        (by rw [ht1']; rfl) (by rw [ht2']; rfl), ?_⟩
      exact stMono_trans hQ.2 (binRuleStep_mono trg _ _ _ st'' r1 r2)
    exact foldl_inv (fun st'' => KInv st'' ∧ StMono st st'') hstep2 st' hP
  exact (foldl_inv (fun st' => KInv st' ∧ StMono st st') hstep st
    ⟨hk, stMono_refl st⟩).1

theorem baseStep_kinv (M : String → String → Bool)
    (tr : List (Symbol × List Rule)) (st : PTables) (iw : Nat × String)
    (hk : KInv st) : KInv (baseStep M tr st iw) := by
  unfold baseStep
  refine foldl_inv KInv ?_ st hk
  intro st' q _ hk'
  by_cases h : M q.1.str iw.2 = true
  · rw [if_pos h]
    refine foldl_inv KInv ?_ st' hk'
    intro st'' r _ hk''
    exact baseRuleStep_kinv _ _ st'' r hk''
  · rw [if_neg h]
    exact hk'

theorem kinv_stAfter (M : String → String → Bool) (g : CnfWrapper)
    (s : List String) (m : Nat) : KInv (stAfter M g s m) := by
  unfold stAfter
  refine foldl_inv KInv ?_ _ ?_
  · intro st' l _ hk
    unfold phaseL
    refine foldl_inv KInv ?_ st' hk
    intro st'' i _ hk'
    refine foldl_inv KInv ?_ st'' hk'
    intro st''' p _ hk''
    exact binStep_kinv _ st''' i l p hk''
  · refine foldl_inv KInv ?_ _ ?_
    · intro st' iw _ hk
      exact baseStep_kinv M g.terminal_rules st' iw hk
    · intro sp r hr
      cases hr

/-- Structural well-formedness of stored weights: every node's stored
weight is its rule's weight plus the sum of its children's subtree
weights. -/
inductive WfW : PTree → Prop where
  | leaf (w : String) : WfW (.leaf w)
  | node (rule : Rule) (ch : List PTree) (w : Int) :
      (∀ c ∈ ch, WfW c) → w = rule.weight + (ch.map PTree.wt).sum →
      WfW (.node rule ch w)

/-- All stored best trees have well-formed weights. -/
def WfInv (st : PTables) : Prop :=
  ∀ sp k t, dictGet? (st.trees sp) k = some t → WfW t

theorem wfInv_updTree {st : PTables} {sp : Int × Int} {k : Symbol}
    {v : PTree} (h : WfInv st) (hv : WfW v) : WfInv (updTree st sp k v) := by
  intro sp' k' t ht
  by_cases hsp : sp' = sp
  · subst hsp
    rw [updTree_trees_self] at ht
    by_cases hk : k' = k
    · subst hk
      rw [dictGet?_dictSet_self] at ht
      exact (Option.some.inj ht) ▸ hv
    · rw [dictGet?_dictSet_ne _ _ _ _ hk] at ht
      exact h sp' k' t ht
  · rw [updTree_trees_ne _ _ _ _ _ hsp] at ht
    exact h sp' k' t ht

theorem wfInv_updTable {st : PTables} {sp : Int × Int} {r : Rule}
    (h : WfInv st) : WfInv (updTable st sp r) := h

theorem baseRuleStep_wf (sp : Int × Int) (w : String) (st : PTables)
    (rule : Rule) (h : WfInv st) : WfInv (baseRuleStep sp w st rule) := by
  unfold baseRuleStep
  by_cases hn : needUpdate ((updTable st sp rule).trees sp) rule.lhs rule.weight = true
  · rw [if_pos hn]
    refine wfInv_updTree (wfInv_updTable h) ?_
    refine WfW.node rule [.leaf w] rule.weight ?_ ?_
    · intro c hc
      rw [List.mem_singleton] at hc
      subst hc
      exact WfW.leaf w
    · simp [PTree.wt]
  · rw [if_neg hn]
    exact wfInv_updTable h

theorem binRuleTree_eq_of_none1 {span1 span2 spT : Int × Int} {r1 r2 : Rule}
    {st1 : PTables} {rule : Rule}
    (ht1 : dictGet? (st1.trees span1) r1.lhs = none) :
    binRuleTree span1 span2 spT r1 r2 st1 rule = st1 := by
  unfold binRuleTree
  rw [ht1]

theorem binRuleTree_eq_of_none2 {span1 span2 spT : Int × Int} {r1 r2 : Rule}
    {st1 : PTables} {rule : Rule} {t1 : PTree}
    (ht1 : dictGet? (st1.trees span1) r1.lhs = some t1)
    (ht2 : dictGet? (st1.trees span2) r2.lhs = none) :
    binRuleTree span1 span2 spT r1 r2 st1 rule = st1 := by
  unfold binRuleTree
  rw [ht1, ht2]

theorem binRuleInner_wf (span1 span2 spT : Int × Int) (r1 r2 : Rule)
    (st : PTables) (rule : Rule) (h : WfInv st) :
    WfInv (binRuleInner span1 span2 spT r1 r2 st rule) := by
  unfold binRuleInner
  cases ht1 : dictGet? ((updTable st spT rule).trees span1) r1.lhs with
  | none =>
      rw [binRuleTree_eq_of_none1 ht1]
      exact wfInv_updTable h
  | some t1 =>
      cases ht2 : dictGet? ((updTable st spT rule).trees span2) r2.lhs with
      | none =>
          rw [binRuleTree_eq_of_none2 ht1 ht2]
          exact wfInv_updTable h
      | some t2 =>
          rw [binRuleTree_eq_of_some ht1 ht2]
          by_cases hn : needUpdate ((updTable st spT rule).trees spT) rule.lhs
              (rule.weight + t1.wt + t2.wt) = true
          · rw [if_pos hn]
            refine wfInv_updTree (wfInv_updTable h) ?_
            refine WfW.node rule [t1, t2] _ ?_ ?_
            · intro c hc
              rcases List.mem_cons.mp hc with rfl | hc'
              · exact h span1 r1.lhs c ht1
              · rw [List.mem_singleton] at hc'
                subst hc'
                exact h span2 r2.lhs c ht2
            · simp [PTree.wt]
              omega
          · rw [if_neg hn]
            exact wfInv_updTable h

theorem wfInv_stAfter (M : String → String → Bool) (g : CnfWrapper)
    (s : List String) (m : Nat) : WfInv (stAfter M g s m) := by
  unfold stAfter
  refine foldl_inv WfInv ?_ _ ?_
  · intro st' l _ h
    unfold phaseL
    refine foldl_inv WfInv ?_ st' h
    intro st'' i _ h'
    refine foldl_inv WfInv ?_ st'' h'
    intro st''' p _ h''
    unfold binStep
    refine foldl_inv WfInv ?_ st''' h''
    intro s1 r1 _ h1
    refine foldl_inv WfInv ?_ s1 h1
    intro s2 r2 _ h2
    unfold binRuleStep
    refine foldl_inv WfInv ?_ s2 h2
    intro s3 rule _ h3
    exact binRuleInner_wf _ _ _ r1 r2 s3 rule h3
  · refine foldl_inv WfInv ?_ _ ?_
    · intro st' iw _ h
      unfold baseStep
      refine foldl_inv WfInv ?_ st' h
      intro st'' q _ h'
      by_cases hq : M q.1.str iw.2 = true
      · rw [if_pos hq]
        refine foldl_inv WfInv ?_ st'' h'
        intro st''' r _ h''
        exact baseRuleStep_wf _ _ st''' r h''
      · rw [if_neg hq]
        exact h'
    · intro sp k t ht
      cases ht

/-- C1: for a non-empty token sequence, `parse` returns a tree iff the
full-span table cell `(0, n-1)` contains a rule whose lhs is the start
symbol, and otherwise raises `ParseError`.  (The `KeyError` branch of the
trees lookup is unreachable: by `kinv_stAfter` every lhs present in a
table cell has a stored best tree.) -/
theorem c1_parse_acceptance (M : String → String → Bool) (g : CnfWrapper)
    (start : Symbol) (s : List String) (hne : s ≠ []) :
    ((∃ r ∈ (parseTables M s g).table (0, (s.length : Int) - 1),
        r.lhs = start) → ∃ t, parse M g start s = .ok t) ∧
    ((∀ r ∈ (parseTables M s g).table (0, (s.length : Int) - 1),
        r.lhs ≠ start) → parse M g start s = .error .parseError) := by
  constructor
  · rintro ⟨r, hr, hl⟩
    unfold parse
    have hall : (((parseTables M s g).table (0, (s.length : Int) - 1)).all
        (fun r => !(r.lhs == start))) ≠ true := by
      intro hcon
      have := List.all_eq_true.mp hcon r hr
      simp only [Bool.not_eq_true', beq_eq_false_iff_ne] at this
      exact this hl
    rw [if_neg hall]
    have hsome : (dictGet? ((parseTables M s g).trees
        (0, (s.length : Int) - 1)) start).isSome = true := by
      have := kinv_stAfter M g s s.length (0, (s.length : Int) - 1) r hr
      rwa [hl] at this
    obtain ⟨t, ht⟩ := Option.isSome_iff_exists.mp hsome
    rw [ht]
    exact ⟨RevertCnf t, rfl⟩
  · intro hforall
    unfold parse
    rw [if_pos]
    refine List.all_eq_true.mpr ?_
    intro r hr
    simp only [Bool.not_eq_true', beq_eq_false_iff_ne]
    exact hforall r hr

/-- C2: for every derivation of `X` over span `(i, j)` with cumulative
weight `w`, `_Parse` stores a best tree for `X` at `(i, j)` of weight at
most `w`, and every stored tree's weight is its rule's weight plus the
sum of its children's subtree weights (`WfW`). -/
theorem c2_weight_minimality (M : String → String → Bool) (g : CnfWrapper)
    (s : List String) {i j : Nat} {X : Symbol} {w : Int}
    (hD : Deriv M g s i j X w) :
    ∃ t, dictGet? ((parseTables M s g).trees ((i : Int), (j : Int))) X
        = some t ∧ t.wt ≤ w ∧ WfW t := by
  have hb := hD.bounds
  have hfacts := deriv_est hD
  have hmono : StMono (stAfter M g s (j - i + 1)) (stAfter M g s s.length) :=
    stAfter_mono M g s (by omega)
  obtain ⟨t, ht, hw⟩ := HasT_mono hmono hfacts.2
  exact ⟨t, ht, hw, wfInv_stAfter M g s s.length _ _ _ ht⟩

/-- C1, witness: the one-rule CNF grammar `S -> 'b'` accepts the token
sequence `["b"]`, via `c1_parse_acceptance`. -/
theorem c1_witness :
    ∃ t, parse (fun pat w => pat == w)
      ((mkCnfWrapper (mkGrammar [.mk (.NT "S") [.T "b"] 0 "r" none])).getD
        ⟨mkGrammar [.mk (.NT "S") [.T "b"] 0 "r" none], [], []⟩)
      (.NT "S") ["b"] = .ok t := by
  refine (c1_parse_acceptance _ _ _ ["b"] (by simp)).1 ?_
  refine ⟨Rule.mk (.NT "S") [.T "b"] 0 "r" none, ?_, rfl⟩
  exact List.mem_singleton.mpr rfl

/-- C2, witness: in the grammar `S -> 'a'` (weight 2), the terminal
derivation of `S` over span `(0,0)` is reflected by a stored tree of
weight at most 2, via `c2_weight_minimality`. -/
theorem c2_witness :
    ∃ t, dictGet? ((parseTables (fun pat w => pat == w) ["a"]
        ((mkCnfWrapper (mkGrammar [.mk (.NT "S") [.T "a"] 2 "r" none])).getD
          ⟨mkGrammar [.mk (.NT "S") [.T "a"] 2 "r" none], [], []⟩)).trees
        ((0 : Int), (0 : Int))) (.NT "S") = some t ∧ t.wt ≤ 2 ∧ WfW t := by
  exact c2_weight_minimality _ _ _
    (@Deriv.term (fun pat w => pat == w)
      ((mkCnfWrapper (mkGrammar [.mk (.NT "S") [.T "a"] 2 "r" none])).getD
        ⟨mkGrammar [.mk (.NT "S") [.T "a"] 2 "r" none], [], []⟩)
      ["a"] 0 "a" (.T "a") [.mk (.NT "S") [.T "a"] 2 "r" none]
      (.mk (.NT "S") [.T "a"] 2 "r" none) rfl
      (List.mem_singleton.mpr rfl) (List.mem_singleton.mpr rfl) rfl)

/-! ### Claim C3: reversal fidelity -/

/-- `ToCnf(g) = CnfWrapper(Unit(Bin(Term(g))))`, with `Unit`'s `while`
loop bound made explicit (see `UnitF`). -/
def ToCnfF (fuel : Nat) (g : Grammar) : Option CnfWrapper :=
  (UnitF fuel (Bin (Term g))).bind mkCnfWrapper

/-- A grammar on which BIN's "fresh" `__SP_…` names collide: the rules
`X -> a b c d` and `X -> a_b c d` both produce the chain-name stem
`__SP_X__a_b_c_d` (the name is built by joining symbol names with `_`,
so the two distinct rhs lists render identically). -/
def gC3 : Grammar := mkGrammar
  [.mk (.NT "X") [.NT "a", .NT "b", .NT "c", .NT "d"] 0 "r4" none,
   .mk (.NT "X") [.NT "a_b", .NT "c", .NT "d"] 0 "r3" none,
   .mk (.NT "a") [.T "ta"] 0 "ra" none,
   .mk (.NT "b") [.T "tb"] 0 "rb" none,
   .mk (.NT "c") [.T "tc"] 0 "rc" none,
   .mk (.NT "d") [.T "td"] 0 "rd" none,
   .mk (.NT "a_b") [.T "tab"] 0 "rab" none]

/-- The CNF conversion of `gC3` (it has no non-terminal unit rules, so
one UNIT iteration suffices). -/
def wC3 : CnfWrapper := (ToCnfF 1 gC3).getD ⟨gC3, [], []⟩

/-- C3, failing input.  On `gC3`, the CNF grammar contains both
`__SP_X__a_b_c_d_1 -> b __SP_X__a_b_c_d_2` (from `r4`) and
`X -> a_b __SP_X__a_b_c_d_1` (from `r3`), so the accepted parse of
`["tab","tb","tc","td"]` combines the `r3` first fragment with the `r4`
chain.  `RevertCnf` then returns a node carrying alias `"r3"` with FOUR
children, while the only original rule with alias `"r3"` has rhs length
3: the reverted tree's child arity does not match the original grammar,
contradicting the claim (and the reversal's own stated purpose).  The
subsequent `_ToTree` would crash on `orig_rule.expansion[3]`. -/
theorem c3_split_name_collision :
    (∃ ch : List PTree,
      parse (fun pat w => pat == w) wC3 (.NT "X") ["tab", "tb", "tc", "td"]
        = .ok (.node
            (.mk (.NT "X") [.NT "a_b", .NT "__SP_X__a_b_c_d_1"] 0 "r3" none)
            ch 0) ∧
      ch.length = 4) ∧
    (∀ r ∈ gC3.rules, r.ralias = "r3" → r.rhs.length = 3) := by
  constructor
  · refine ⟨[.node (.mk (.NT "a_b") [.T "tab"] 0 "rab" none) [.leaf "tab"] 0,
      .node (.mk (.NT "b") [.T "tb"] 0 "rb" none) [.leaf "tb"] 0,
      .node (.mk (.NT "c") [.T "tc"] 0 "rc" none) [.leaf "tc"] 0,
      .node (.mk (.NT "d") [.T "td"] 0 "rd" none) [.leaf "td"] 0], ?_, rfl⟩
    rfl
  · decide
